import Mathlib

/-!
Shallow embedding of optuna/study/_multi_objective.py.

Numbers that the Python code manipulates are IEEE-754 doubles, but the code
only ever compares, negates and copies them, so we model them exactly by an
extended-rational type with a NaN element and the IEEE comparison semantics
(every comparison involving NaN is false, NaN is not equal to itself).
NumPy arrays are modelled by lists (matrices are lists of rows); the mutable
rank and dominated-count arrays inside the front-peeling loop are modelled by
total functions on the row indices, materialised back into a list at the end.
The while loop of the ranking algorithm is modelled with explicit fuel equal
to the number of rows; the termination development below proves this fuel is
reached exactly when the Python loop would still be running, for every
n_below for which the Python loop terminates at all.
-/

/-- IEEE-style scalar: NaN, minus infinity, a finite value, plus infinity. -/
inductive Val where
  | nan : Val
  | ninf : Val
  | fin : ℚ → Val
  | pinf : Val
deriving DecidableEq

/-- True exactly on NaN, mirrors numpy isnan. -/
def Val.isNan : Val → Bool
  | .nan => true
  | _ => false

/-- IEEE comparison x <= y: false whenever either side is NaN. -/
def Val.le : Val → Val → Bool
  | .nan, _ => false
  | _, .nan => false
  | .ninf, _ => true
  | _, .pinf => true
  | .pinf, _ => false
  | .fin _, .ninf => false
  | .fin a, .fin b => decide (a ≤ b)

/-- IEEE comparison x < y: false whenever either side is NaN. -/
def Val.lt : Val → Val → Bool
  | .nan, _ => false
  | _, .nan => false
  | .ninf, .ninf => false
  | .ninf, _ => true
  | .pinf, _ => false
  | .fin _, .pinf => true
  | .fin _, .ninf => false
  | .fin a, .fin b => decide (a < b)

/-- IEEE equality x == y: NaN is not equal to anything, including itself. -/
def Val.beq : Val → Val → Bool
  | .fin a, .fin b => a == b
  | .ninf, .ninf => true
  | .pinf, .pinf => true
  | _, _ => false

/-- Float negation: swaps the infinities, fixes NaN. -/
def Val.neg : Val → Val
  | .nan => .nan
  | .ninf => .pinf
  | .pinf => .ninf
  | .fin a => .fin (-a)

/-- The per-objective optimization direction (optuna StudyDirection). -/
inductive StudyDirection where
  | minimize
  | maximize
deriving DecidableEq

/-- Trial lifecycle state (optuna TrialState); only complete trials compare. -/
inductive TrialState where
  | running
  | complete
  | pruned
  | fail
  | waiting
deriving DecidableEq

/-- A frozen trial record: identifier, state and the objective value vector.
In Python the values attribute is None until the trial completes and its
entries are nullable; only the both-complete branch of the dominance check
ever reads the entries, so we keep the entry-level nullability and model the
vector itself as always present. -/
structure FrozenTrial where
  number : ℕ
  state : TrialState
  values : List (Option Val)
deriving DecidableEq

/-- Python _normalize_value: a missing value becomes plus infinity, then a
MAXIMIZE value is negated, in that order. -/
def _normalize_value (value : Option Val) (direction : StudyDirection) : Val :=
  let v : Val :=
    match value with
    | none => Val.pinf
    | some x => x
  match direction with
  | .maximize => v.neg
  | .minimize => v

/-- The normalized (minimize-equivalent) value vector of a trial, as built
inside _dominates: Python zip truncates at the shorter sequence. -/
def normalizedValues (t : FrozenTrial) (dirs : List StudyDirection) : List Val :=
  (t.values.zip dirs).map fun vd => _normalize_value vd.1 vd.2

/-- Python list equality on float lists: same length and pairwise IEEE ==. -/
def valListEq (a b : List Val) : Bool :=
  a.length == b.length && (a.zip b).all fun p => p.1.beq p.2

/-- The dominance decision of _dominates once the error checks have passed:
an incomplete trial dominates nothing, a complete trial dominates any
incomplete one, and between complete trials t0 dominates t1 when the
normalized vectors differ and t0 is pointwise <= t1. -/
def dominatesCore (t0 t1 : FrozenTrial) (dirs : List StudyDirection) : Bool :=
  if t0.state ≠ TrialState.complete then false
  else if t1.state ≠ TrialState.complete then true
  else
    let n0 := normalizedValues t0 dirs
    let n1 := normalizedValues t1 dirs
    if valListEq n0 n1 then false
    else (n0.zip n1).all fun p => Val.le p.1 p.2

/-- Python _dominates, with its two ValueError raises modelled as errors.
The two assertions of the source cannot fire because a complete FrozenTrial
always carries its values list, which the model keeps directly. -/
def _dominates (t0 t1 : FrozenTrial) (dirs : List StudyDirection) :
    Except String Bool :=
  if t0.state ≠ TrialState.complete then .ok false
  else if t1.state ≠ TrialState.complete then .ok true
  else if t0.values.length ≠ t1.values.length then
    .error "Trials with different numbers of objectives cannot be compared."
  else if t0.values.length ≠ dirs.length then
    .error "The number of the values and the number of the objectives are mismatched."
  else .ok (dominatesCore t0 t1 dirs)

/-- Python _get_pareto_front_trials_nd: filter to complete trials, keep the
trials dominated by no other, in filtered-input order. -/
def _get_pareto_front_trials_nd (trials : List FrozenTrial)
    (dirs : List StudyDirection) : List FrozenTrial :=
  let ts := trials.filter fun t => decide (t.state = TrialState.complete)
  ts.filter fun t => !(ts.any fun o => dominatesCore o t dirs)

/-- The sort key of the two-dimensional front extraction: the pair of the
first two normalized values. -/
def trialKey (dirs : List StudyDirection) (t : FrozenTrial) : Val × Val :=
  (_normalize_value (t.values.getD 0 none) (dirs.getD 0 .minimize),
   _normalize_value (t.values.getD 1 none) (dirs.getD 1 .minimize))

/-- Python tuple comparison on the two-component keys: the first component
that is not IEEE-equal decides with the IEEE less-than, otherwise false. -/
def pairLt (p q : Val × Val) : Bool :=
  if p.1.beq q.1 then (if p.2.beq q.2 then false else p.2.lt q.2)
  else p.1.lt q.1

/-- The non-strict comparator a stable sort driven by Python less-than uses:
a may stay before b exactly when b is not strictly below a. -/
def trialLe (dirs : List StudyDirection) (a b : FrozenTrial) : Bool :=
  !(pairLt (trialKey dirs b) (trialKey dirs a))

/-- Stable insertion of one element into a list with a boolean comparator. -/
def orderedInsertB (le : α → α → Bool) (x : α) : List α → List α
  | [] => [x]
  | y :: ys => if le x y then x :: y :: ys else y :: orderedInsertB le x ys

/-- Stable insertion sort; a Python list sort is a stable sort, and under
the documented total-preorder precondition every stable sort agrees. -/
def insertionSortB (le : α → α → Bool) : List α → List α
  | [] => []
  | x :: xs => orderedInsertB le x (insertionSortB le xs)

/-- The left-to-right sweep of the 2d extraction: drop a trial when the most
recently kept trial dominates it, otherwise keep it and make it the new
reference. -/
def sweep (dirs : List StudyDirection) : FrozenTrial → List FrozenTrial →
    List FrozenTrial
  | _, [] => []
  | last, t :: rest =>
    if dominatesCore last t dirs then sweep dirs last rest
    else t :: sweep dirs t rest

/-- Python _get_pareto_front_trials_2d: filter to complete trials, stable
sort by the normalized key pair, sweep, then stable sort by trial number. -/
def _get_pareto_front_trials_2d (trials : List FrozenTrial)
    (dirs : List StudyDirection) : List FrozenTrial :=
  let ts := trials.filter fun t => decide (t.state = TrialState.complete)
  match insertionSortB (trialLe dirs) ts with
  | [] => []
  | first :: rest =>
    insertionSortB (fun a b => decide (a.number ≤ b.number))
      (first :: sweep dirs first rest)

/-- Python _get_pareto_front_trials_by_trials: objective count two selects
the two-dimensional algorithm, anything else the general one. -/
def _get_pareto_front_trials_by_trials (trials : List FrozenTrial)
    (dirs : List StudyDirection) : List FrozenTrial :=
  if dirs.length = 2 then _get_pareto_front_trials_2d trials dirs
  else _get_pareto_front_trials_nd trials dirs

/-- One entry of the domination matrix of _calculate_nondomination_rank:
dominatedBy vi vj is true when the row vj dominates the row vi, that is
vi >= vj in every coordinate and vi > vj in at least one (IEEE semantics,
so any NaN coordinate makes both comparisons false). -/
def dominatedBy (vi vj : List Val) : Bool :=
  ((vi.zip vj).all fun p => Val.le p.2 p.1) &&
    ((vi.zip vj).any fun p => Val.lt p.2 p.1)

/-- The whole domination matrix as an index function: matOf rows j i says
row i dominates row j. Out-of-range indices read the empty row, which
neither dominates nor is dominated. -/
def matOf (rows : List (List Val)) : ℕ → ℕ → Bool :=
  fun j i => dominatedBy (rows.getD j []) (rows.getD i [])

/-- The mutable state of the front-peeling loop: the rank array, the
dominated-count array (both as functions on row indices), the current rank
and the number of rows ranked so far. -/
structure RankState where
  ranks : ℕ → ℤ
  cnt : ℕ → ℤ
  rank : ℤ
  rankedNum : ℕ

/-- One iteration of the peeling loop: collect the rows with dominated
count zero, give them the next rank, set their count to the -1 sentinel and
subtract from every row the number of newly ranked rows dominating it. -/
def rankStep (n : ℕ) (mat : ℕ → ℕ → Bool) (s : RankState) : RankState where
  ranks := fun j => if j < n ∧ s.cnt j = 0 then s.rank + 1 else s.ranks j
  cnt := fun j =>
    if j < n then
      (if s.cnt j = 0 then -1 else s.cnt j) -
        (((Finset.range n).filter fun i => s.cnt i = 0 ∧ mat j i = true).card : ℤ)
    else s.cnt j
  rank := s.rank + 1
  rankedNum := s.rankedNum + ((Finset.range n).filter fun i => s.cnt i = 0).card

/-- The while loop of _calculate_nondomination_rank, with explicit fuel:
iterate while fewer than nb rows are ranked. -/
def rankLoop (n : ℕ) (mat : ℕ → ℕ → Bool) (nb : ℤ) :
    ℕ → RankState → RankState
  | 0, s => s
  | fuel + 1, s =>
    if (s.rankedNum : ℤ) < nb then rankLoop n mat nb fuel (rankStep n mat s)
    else s

/-- The state before the first iteration: every rank is the -1 sentinel and
every dominated count is the number of rows dominating that row. -/
def initState (n : ℕ) (mat : ℕ → ℕ → Bool) : RankState where
  ranks := fun _ => -1
  cnt := fun j => (((Finset.range n).filter fun i => mat j i = true).card : ℤ)
  rank := -1
  rankedNum := 0

/-- The effective stopping threshold: Python "n_below or len(objective_values)"
replaces both None and 0 by the number of rows. -/
def nbOf (nBelow : Option ℤ) (n : ℕ) : ℤ :=
  match nBelow with
  | none => (n : ℤ)
  | some k => if k = 0 then (n : ℤ) else k

/-- Python _calculate_nondomination_rank: build the domination matrix, peel
fronts until the threshold is reached, return the rank array and the last
rank index assigned. The fuel equals the row count, which the termination
theorems below show is never exhausted while the Python loop would still
run, for every threshold at most the row count. -/
def _calculate_nondomination_rank (rows : List (List Val))
    (nBelow : Option ℤ) : List ℤ × ℤ :=
  let n := rows.length
  let s := rankLoop n (matOf rows) (nbOf nBelow n) n (initState n (matOf rows))
  ((List.range n).map s.ranks, s.rank)

/-- Selection of the rows of xs at the true positions of a boolean mask,
mirrors numpy boolean-mask indexing. -/
def maskSelect (mask : List Bool) (xs : List α) : List α :=
  ((mask.zip xs).filter fun p => p.1).map fun p => p.2

/-- The position a masked row takes inside the selected sub-array: the
number of true mask entries strictly before index j. -/
def maskCountBefore (mask : List Bool) (j : ℕ) : ℕ :=
  (mask.take j).countP id

/-- Feasibility of a penalty entry: not NaN and at most zero. -/
def penFeasible (p : Val) : Bool := !p.isNan && Val.le p (Val.fin 0)

/-- Infeasibility of a penalty entry: not NaN and strictly positive. -/
def penInfeasible (p : Val) : Bool := !p.isNan && Val.lt (Val.fin 0) p

/-- Python _fast_non_dominated_sort. Without a penalty it is the plain
ranking. With one, after the length check, the feasible rows are ranked on
their objectives, the infeasible rows on the penalty as a single objective,
the unknown-penalty rows on their objectives, and the three rank blocks are
stacked with offsets feasible-bottom+1 and infeasible-bottom+1. The scatter
of numpy mask assignment is expressed pointwise: every index belongs to
exactly one of the three masks, and receives its rank inside the sub-ranking
of its own partition, read off at its position within that partition. -/
def _fast_non_dominated_sort (objective_values : List (List Val))
    (penalty : Option (List Val)) (nBelow : Option ℤ) :
    Except String (List ℤ) :=
  match penalty with
  | none => .ok (_calculate_nondomination_rank objective_values nBelow).1
  | some pen =>
    if pen.length ≠ objective_values.length then
      .error "The length of penalty and objective_values must be same."
    else
      let isNanM := pen.map Val.isNan
      let isFeasM := pen.map penFeasible
      let isInfM := pen.map penInfeasible
      let fr := _calculate_nondomination_rank (maskSelect isFeasM objective_values) nBelow
      let ir := _calculate_nondomination_rank
        (maskSelect isInfM (pen.map fun p => [p])) nBelow
      let ur := _calculate_nondomination_rank (maskSelect isNanM objective_values) nBelow
      .ok ((List.range objective_values.length).map fun j =>
        if isNanM.getD j false then
          ur.1.getD (maskCountBefore isNanM j) 0 + (fr.2 + 1) + (ir.2 + 1)
        else if isFeasM.getD j false then
          fr.1.getD (maskCountBefore isFeasM j) 0
        else
          ir.1.getD (maskCountBefore isInfM j) 0 + (fr.2 + 1))

/-- Rectangularity of a matrix: every row has the same length, as is forced
by the numpy ndarray type of the source. -/
def Rect (rows : List (List Val)) : Prop :=
  ∃ K, ∀ r ∈ rows, r.length = K

/-- The set of still-unranked row indices of a loop state: those whose
dominated count has not been set to a negative sentinel. -/
def Ust (n : ℕ) (s : RankState) : Finset ℕ :=
  (Finset.range n).filter fun j => 0 ≤ s.cnt j

/-- The loop invariant of the front-peeling iteration, after k iterations:
the dominated count of an unranked row counts its unranked dominators, the
ranked-row counter complements the unranked set, unranked rows hold the -1
sentinel, ranked rows hold a rank between 0 and the current rank, and the
current rank is the iteration count minus one. -/
structure LoopInv (n : ℕ) (mat : ℕ → ℕ → Bool) (k : ℕ) (s : RankState) : Prop where
  cnt_eq : ∀ j ∈ Ust n s, s.cnt j = (((Ust n s).filter fun i => mat j i = true).card : ℤ)
  card_eq : s.rankedNum + (Ust n s).card = n
  ranks_unset : ∀ j < n, 0 ≤ s.cnt j → s.ranks j = -1
  ranks_set : ∀ j < n, s.cnt j < 0 → 0 ≤ s.ranks j ∧ s.ranks j ≤ s.rank
  rank_eq : s.rank = (k : ℤ) - 1

/-! ### Order lemmas for the IEEE scalar type -/

/-- A true comparison never involves NaN. -/
theorem vle_not_nan {a b : Val} (h : Val.le a b = true) :
    a.isNan = false ∧ b.isNan = false := by
  cases a <;> cases b <;> simp_all [Val.le, Val.isNan]

/-- Reflexivity of the IEEE comparison away from NaN. -/
theorem vle_refl {a : Val} (h : a.isNan = false) : Val.le a a = true := by
  cases a <;> simp_all [Val.le, Val.isNan]

/-- Transitivity of the IEEE non-strict comparison. -/
theorem vle_trans {a b c : Val} (h1 : Val.le a b = true)
    (h2 : Val.le b c = true) : Val.le a c = true := by
  cases a <;> cases b <;> cases c <;> simp_all [Val.le] <;> linarith

/-- A strict comparison after a non-strict one stays strict. -/
theorem vlt_of_le_of_lt {a b c : Val} (h1 : Val.le a b = true)
    (h2 : Val.lt b c = true) : Val.lt a c = true := by
  cases a <;> cases b <;> cases c <;> simp_all [Val.le, Val.lt] <;> linarith

/-- A non-strict comparison after a strict one stays strict. -/
theorem vlt_of_lt_of_le {a b c : Val} (h1 : Val.lt a b = true)
    (h2 : Val.le b c = true) : Val.lt a c = true := by
  cases a <;> cases b <;> cases c <;> simp_all [Val.le, Val.lt] <;> linarith

/-- Antisymmetry of the IEEE non-strict comparison. -/
theorem vle_antisymm {a b : Val} (h1 : Val.le a b = true)
    (h2 : Val.le b a = true) : a = b := by
  cases a <;> cases b <;> simp_all [Val.le] <;> linarith

/-- The strict comparison is irreflexive, NaN included. -/
theorem vlt_irrefl (a : Val) : Val.lt a a = false := by
  cases a <;> simp [Val.lt]

/-- The strict comparison is asymmetric, NaN included. -/
theorem vlt_asymm {a b : Val} (h : Val.lt a b = true) : Val.lt b a = false := by
  cases a <;> cases b <;> simp_all [Val.lt] <;> linarith

/-- Totality of the IEEE comparison away from NaN. -/
theorem vle_total {a b : Val} (ha : a.isNan = false) (hb : b.isNan = false) :
    Val.le a b = true ∨ Val.le b a = true := by
  cases a <;> cases b <;> simp_all [Val.le, Val.isNan]
  exact le_total _ _

/-- Away from NaN a failed non-strict comparison is a reversed strict one. -/
theorem vnot_le {a b : Val} (ha : a.isNan = false) (hb : b.isNan = false) :
    Val.le a b = false ↔ Val.lt b a = true := by
  cases a <;> cases b <;> simp_all [Val.le, Val.lt, Val.isNan]

/-- IEEE equality is symmetric. -/
theorem vbeq_symm (a b : Val) : Val.beq a b = Val.beq b a := by
  cases a <;> cases b <;> simp [Val.beq, BEq.comm]

/-- IEEE equality holds on equal arguments away from NaN. -/
theorem vbeq_refl {a : Val} (h : a.isNan = false) : Val.beq a a = true := by
  cases a <;> simp_all [Val.beq, Val.isNan]

/-- IEEE equality implies real equality. -/
theorem vbeq_eq {a b : Val} (h : Val.beq a b = true) : a = b := by
  cases a <;> cases b <;> simp_all [Val.beq]

/-- Under a true non-strict comparison, IEEE inequality is strictness. -/
theorem vle_beq_lt {a b : Val} (h : Val.le a b = true) :
    Val.beq a b = false ↔ Val.lt a b = true := by
  cases a <;> cases b <;>
    simp_all [Val.le, Val.lt, Val.beq, lt_iff_le_and_ne, beq_iff_eq]

/-- An element that is not IEEE-equal to itself fails every comparison. -/
theorem vbeq_self_false {a : Val} (h : Val.beq a a = false) :
    Val.le a a = false := by
  cases a <;> simp_all [Val.le, Val.beq]

/-- A strict comparison implies the non-strict one. -/
theorem vlt_imp_le {a b : Val} (h : Val.lt a b = true) : Val.le a b = true := by
  cases a <;> cases b <;> simp_all [Val.le, Val.lt] <;> linarith

/-! ### Pointwise characterisation of the zipped comparisons -/

/-- A zipped all is a pointwise statement up to the shorter length. -/
theorem zip_all_iff {α : Type} (d : α) (p : α → α → Bool) :
    ∀ (a b : List α),
      (((a.zip b).all fun x => p x.1 x.2) = true ↔
        ∀ k, k < min a.length b.length → p (a.getD k d) (b.getD k d) = true)
  | [], b => by simp
  | x :: xs, [] => by simp
  | x :: xs, y :: ys => by
    simp only [List.zip_cons_cons, List.all_cons, Bool.and_eq_true,
      zip_all_iff d p xs ys, List.length_cons]
    constructor
    · rintro ⟨h0, h⟩ k hk
      cases k with
      | zero => simpa using h0
      | succ k =>
        have : k < min xs.length ys.length := by omega
        simpa using h k this
    · intro h
      refine ⟨by simpa using h 0 (by omega), fun k hk => ?_⟩
      have := h (k + 1) (by omega)
      simpa using this

/-- A zipped any is a pointwise existence up to the shorter length. -/
theorem zip_any_iff {α : Type} (d : α) (p : α → α → Bool) :
    ∀ (a b : List α),
      (((a.zip b).any fun x => p x.1 x.2) = true ↔
        ∃ k, k < min a.length b.length ∧ p (a.getD k d) (b.getD k d) = true)
  | [], b => by simp
  | x :: xs, [] => by simp
  | x :: xs, y :: ys => by
    simp only [List.zip_cons_cons, List.any_cons, Bool.or_eq_true,
      zip_any_iff d p xs ys, List.length_cons]
    constructor
    · rintro (h0 | ⟨k, hk, h⟩)
      · exact ⟨0, by omega, by simpa using h0⟩
      · exact ⟨k + 1, by omega, by simpa using h⟩
    · rintro ⟨k, hk, h⟩
      cases k with
      | zero => exact Or.inl (by simpa using h)
      | succ k => exact Or.inr ⟨k, by omega, by simpa using h⟩

/-- Pointwise description of the Python float-list equality. -/
theorem valListEq_iff {a b : List Val} :
    valListEq a b = true ↔
      a.length = b.length ∧
        ∀ k, k < a.length → Val.beq (a.getD k .nan) (b.getD k .nan) = true := by
  unfold valListEq
  rw [Bool.and_eq_true, beq_iff_eq, zip_all_iff Val.nan Val.beq]
  constructor
  · rintro ⟨hl, h⟩
    exact ⟨hl, fun k hk => h k (by omega)⟩
  · rintro ⟨hl, h⟩
    exact ⟨hl, fun k hk => h k (by omega)⟩

/-- Pointwise description of one domination-matrix entry. -/
theorem dominatedBy_iff {vi vj : List Val} :
    dominatedBy vi vj = true ↔
      (∀ k, k < min vi.length vj.length →
        Val.le (vj.getD k .nan) (vi.getD k .nan) = true) ∧
      (∃ k, k < min vi.length vj.length ∧
        Val.lt (vj.getD k .nan) (vi.getD k .nan) = true) := by
  unfold dominatedBy
  rw [Bool.and_eq_true, zip_all_iff Val.nan (fun x y => Val.le y x),
    zip_any_iff Val.nan (fun x y => Val.lt y x)]

/-- Nothing is dominated by the empty row. -/
theorem dominatedBy_nil_right (vi : List Val) : dominatedBy vi [] = false := by
  simp [dominatedBy]

/-- The empty row is dominated by nothing. -/
theorem dominatedBy_nil_left (vj : List Val) : dominatedBy [] vj = false := by
  simp [dominatedBy]

/-- No row dominates itself. -/
theorem dominatedBy_self (r : List Val) : dominatedBy r r = false := by
  by_contra h
  have h := dominatedBy_iff.mp (by simpa using h)
  obtain ⟨k, _, hk⟩ := h.2
  simp [vlt_irrefl] at hk

/-- Domination composes over rows of one common length. -/
theorem dominatedBy_trans {a b c : List Val} {K : ℕ} (ha : a.length = K)
    (hb : b.length = K) (hc : c.length = K) (h1 : dominatedBy a b = true)
    (h2 : dominatedBy b c = true) : dominatedBy a c = true := by
  rw [dominatedBy_iff] at h1 h2 ⊢
  obtain ⟨hall1, k1, hk1, hlt1⟩ := h1
  obtain ⟨hall2, k2, hk2, hlt2⟩ := h2
  rw [ha, hb] at hall1 hk1
  rw [hb, hc] at hall2 hk2
  rw [ha, hc]
  simp only [min_self] at *
  refine ⟨fun k hk => vle_trans (hall2 k hk) (hall1 k hk), ?_⟩
  exact ⟨k2, hk2, vlt_of_lt_of_le hlt2 (hall1 k2 hk2)⟩

/-- The matrix relation is irreflexive. -/
theorem matOf_irrefl (rows : List (List Val)) (a : ℕ) :
    matOf rows a a = false := by
  simp [matOf, dominatedBy_self]

/-- The matrix relation of a rectangular matrix is transitive. -/
theorem matOf_trans {rows : List (List Val)} (hR : Rect rows) {a b c : ℕ}
    (h1 : matOf rows a b = true) (h2 : matOf rows b c = true) :
    matOf rows a c = true := by
  obtain ⟨K, hK⟩ := hR
  unfold matOf at *
  have hrow : ∀ i : ℕ, rows.getD i [] = [] ∨ (rows.getD i []).length = K := by
    intro i
    by_cases hi : i < rows.length
    · right
      have he : rows.getD i [] = rows[i] := by
        rw [List.getD_eq_getElem?_getD, List.getElem?_eq_getElem hi]
        rfl
      rw [he]
      exact hK _ (List.getElem_mem hi)
    · left
      rw [List.getD_eq_getElem?_getD, List.getElem?_eq_none (by omega)]
      rfl
  rcases hrow a with h | ha
  · rw [h, dominatedBy_nil_left] at h1
    exact absurd h1 (by simp)
  rcases hrow b with h | hb
  · rw [h, dominatedBy_nil_right] at h1
    exact absurd h1 (by simp)
  rcases hrow c with h | hc
  · rw [h, dominatedBy_nil_right] at h2
    exact absurd h2 (by simp)
  exact dominatedBy_trans ha hb hc h1 h2

/-! ### The front-peeling loop invariant -/

/-- Unfolded dominated count after one step, inside the index range. -/
theorem step_cnt_def (n : ℕ) (mat : ℕ → ℕ → Bool) (s : RankState) {j : ℕ}
    (hj : j < n) :
    (rankStep n mat s).cnt j =
      (if s.cnt j = 0 then -1 else s.cnt j) -
        (((Finset.range n).filter fun i => s.cnt i = 0 ∧ mat j i = true).card : ℤ) := by
  simp [rankStep, hj]

/-- Unfolded rank array after one step. -/
theorem step_ranks_def (n : ℕ) (mat : ℕ → ℕ → Bool) (s : RankState) (j : ℕ) :
    (rankStep n mat s).ranks j =
      if j < n ∧ s.cnt j = 0 then s.rank + 1 else s.ranks j := rfl

/-- The current front: unranked rows whose dominated count reached zero. -/
theorem front_subset_Ust (n : ℕ) (s : RankState) :
    ((Finset.range n).filter fun i => s.cnt i = 0) ⊆ Ust n s := by
  intro i hi
  simp only [Finset.mem_filter, Finset.mem_range] at hi
  simp [Ust, Finset.mem_filter, Finset.mem_range, hi.1, hi.2]

/-- Filtering distributes over removing the front from the unranked set. -/
theorem filter_sdiff_card {U Z : Finset ℕ} (hZU : Z ⊆ U) (p : ℕ → Prop)
    [DecidablePred p] :
    ((U \ Z).filter p).card = (U.filter p).card - (Z.filter p).card := by
  have heq : (U \ Z).filter p = U.filter p \ Z.filter p := by
    ext x
    simp only [Finset.mem_filter, Finset.mem_sdiff]
    tauto
  rw [heq, Finset.card_sdiff (Finset.filter_subset_filter _ hZU)]

/-- After a step the unranked set loses exactly the current front. -/
theorem Ust_step {n : ℕ} {mat : ℕ → ℕ → Bool} {k : ℕ} {s : RankState}
    (inv : LoopInv n mat k s) :
    Ust n (rankStep n mat s) =
      Ust n s \ ((Finset.range n).filter fun i => s.cnt i = 0) := by
  ext j
  simp only [Ust, Finset.mem_sdiff, Finset.mem_filter, Finset.mem_range]
  constructor
  · rintro ⟨hj, hge⟩
    rw [step_cnt_def n mat s hj] at hge
    by_cases h0 : s.cnt j = 0
    · simp only [h0, if_pos] at hge
      have : (0:ℤ) ≤ (((Finset.range n).filter
          fun i => s.cnt i = 0 ∧ mat j i = true).card : ℤ) := by positivity
      omega
    · simp only [h0, if_neg, not_false_iff] at hge
      have hc : (0:ℤ) ≤ s.cnt j := by
        have : (0:ℤ) ≤ (((Finset.range n).filter
            fun i => s.cnt i = 0 ∧ mat j i = true).card : ℤ) := by positivity
        omega
      exact ⟨⟨hj, hc⟩, fun h => h0 h.2⟩
  · rintro ⟨⟨hj, hge⟩, hnz⟩
    have h0 : s.cnt j ≠ 0 := fun h => hnz ⟨hj, h⟩
    refine ⟨hj, ?_⟩
    rw [step_cnt_def n mat s hj, if_neg h0]
    have hcnt : s.cnt j = (((Ust n s).filter fun i => mat j i = true).card : ℤ) :=
      inv.cnt_eq j (by simp [Ust, Finset.mem_filter, Finset.mem_range, hj, hge])
    have hff : (Finset.range n).filter (fun i => s.cnt i = 0 ∧ mat j i = true) ⊆
        (Ust n s).filter fun i => mat j i = true := by
      intro i hi
      simp only [Finset.mem_filter, Finset.mem_range] at hi
      simp [Ust, Finset.mem_filter, Finset.mem_range, hi.1, hi.2.1, hi.2.2]
    have := Finset.card_le_card hff
    omega

/-- The loop invariant is preserved by one iteration. -/
theorem loopInv_step {n : ℕ} {mat : ℕ → ℕ → Bool} {k : ℕ} {s : RankState}
    (inv : LoopInv n mat k s) : LoopInv n mat (k + 1) (rankStep n mat s) := by
  have hZU := front_subset_Ust n s
  have hU := Ust_step inv
  constructor
  · intro j hj
    rw [hU] at hj
    obtain ⟨hjU, hjZ⟩ := Finset.mem_sdiff.mp hj
    have hjn : j < n := by
      have := Finset.mem_filter.mp hjU
      exact Finset.mem_range.mp this.1
    have h0 : s.cnt j ≠ 0 := by
      intro h
      exact hjZ (Finset.mem_filter.mpr ⟨Finset.mem_range.mpr hjn, h⟩)
    rw [step_cnt_def n mat s hjn, if_neg h0, hU,
      filter_sdiff_card hZU (fun i => mat j i = true)]
    have hcnt := inv.cnt_eq j hjU
    have hzf : ((Finset.range n).filter fun i => s.cnt i = 0 ∧ mat j i = true) =
        (((Finset.range n).filter fun i => s.cnt i = 0).filter
          fun i => mat j i = true) := by
      rw [Finset.filter_filter]
    have hsub : (((Finset.range n).filter fun i => s.cnt i = 0).filter
        fun i => mat j i = true) ⊆ (Ust n s).filter fun i => mat j i = true :=
      Finset.filter_subset_filter _ hZU
    have hle := Finset.card_le_card hsub
    rw [hzf]
    push_cast
    omega
  · have hcards : (Ust n (rankStep n mat s)).card =
        (Ust n s).card -
          ((Finset.range n).filter fun i => s.cnt i = 0).card := by
      rw [hU, Finset.card_sdiff hZU]
    have hle := Finset.card_le_card hZU
    have hc := inv.card_eq
    have hrn : (rankStep n mat s).rankedNum =
        s.rankedNum + ((Finset.range n).filter fun i => s.cnt i = 0).card := rfl
    omega
  · intro j hjn hge
    rw [step_ranks_def]
    have hjU : j ∈ Ust n (rankStep n mat s) := by
      simp [Ust, Finset.mem_filter, Finset.mem_range, hjn, hge]
    rw [hU, Finset.mem_sdiff] at hjU
    have h0 : s.cnt j ≠ 0 := by
      intro h
      exact hjU.2 (Finset.mem_filter.mpr ⟨Finset.mem_range.mpr hjn, h⟩)
    rw [if_neg (by tauto)]
    have hjUs := Finset.mem_filter.mp hjU.1
    exact inv.ranks_unset j hjn hjUs.2
  · intro j hjn hlt
    rw [step_ranks_def]
    by_cases h0 : s.cnt j = 0
    · rw [if_pos ⟨hjn, h0⟩]
      have h1 := inv.rank_eq
      have h2 : (rankStep n mat s).rank = s.rank + 1 := rfl
      omega
    · rw [if_neg (by tauto)]
      by_cases hge : 0 ≤ s.cnt j
      · exfalso
        have hjU : j ∈ Ust n (rankStep n mat s) := by
          rw [hU, Finset.mem_sdiff]
          constructor
          · simp [Ust, Finset.mem_filter, Finset.mem_range, hjn, hge]
          · intro h
            exact h0 (Finset.mem_filter.mp h).2
        have := (Finset.mem_filter.mp ((by simpa [Ust] using hjU :
          j ∈ (Finset.range n).filter fun i => 0 ≤ (rankStep n mat s).cnt i))).2
        omega
      · have := inv.ranks_set j hjn (by omega)
        have h2 : (rankStep n mat s).rank = s.rank + 1 := rfl
        omega
  · have h1 := inv.rank_eq
    have h2 : (rankStep n mat s).rank = s.rank + 1 := rfl
    push_cast
    omega

/-- The invariant holds before the first iteration. -/
theorem loopInv_init (n : ℕ) (mat : ℕ → ℕ → Bool) :
    LoopInv n mat 0 (initState n mat) := by
  have hUst : Ust n (initState n mat) = Finset.range n := by
    ext j
    simp only [Ust, Finset.mem_filter, Finset.mem_range, initState]
    exact ⟨fun h => h.1, fun h => ⟨h, by positivity⟩⟩
  constructor
  · intro j hj
    rw [hUst]
    rfl
  · rw [hUst]
    simp [initState]
  · intro j hj hge
    rfl
  · intro j hj hlt
    exfalso
    have : (0:ℤ) ≤ (initState n mat).cnt j := by
      simp only [initState]
      positivity
    omega
  · simp [initState]

/-- The invariant holds after any number of iterations. -/
theorem loopInv_iterate (n : ℕ) (mat : ℕ → ℕ → Bool) (k : ℕ) :
    LoopInv n mat k ((rankStep n mat)^[k] (initState n mat)) := by
  induction k with
  | zero => exact loopInv_init n mat
  | succ k ih =>
    rw [Function.iterate_succ_apply']
    exact loopInv_step ih

/-- A finite nonempty set carrying a transitive irreflexive boolean relation
has a member dominated by no other member. -/
theorem exists_undominated {U : Finset ℕ} (hU : U.Nonempty)
    {mat : ℕ → ℕ → Bool}
    (htr : ∀ a b c, mat a b = true → mat b c = true → mat a c = true)
    (hirr : ∀ a, mat a a = false) :
    ∃ j ∈ U, ∀ i ∈ U, mat j i = false := by
  obtain ⟨j, hjU, hmin⟩ :=
    U.exists_min_image (fun j => ((U.filter fun i => mat j i = true).card)) hU
  refine ⟨j, hjU, fun i hiU => ?_⟩
  by_contra hji
  have hji : mat j i = true := by
    cases h : mat j i
    · exact absurd h hji
    · rfl
  have hsub : (U.filter fun k => mat i k = true) ⊆
      U.filter fun k => mat j k = true := by
    intro x hx
    obtain ⟨hxU, hxr⟩ := Finset.mem_filter.mp hx
    exact Finset.mem_filter.mpr ⟨hxU, htr j i x hji hxr⟩
  have hss : (U.filter fun k => mat i k = true) ⊂
      U.filter fun k => mat j k = true := by
    rw [Finset.ssubset_iff_of_subset hsub]
    refine ⟨i, Finset.mem_filter.mpr ⟨hiU, hji⟩, fun h => ?_⟩
    have := (Finset.mem_filter.mp h).2
    rw [hirr i] at this
    exact absurd this (by simp)
  have hlt := Finset.card_lt_card hss
  have := hmin i hiU
  omega

/-- Each iteration never decreases the ranked counter. -/
theorem step_rankedNum_le (n : ℕ) (mat : ℕ → ℕ → Bool) (s : RankState) :
    s.rankedNum ≤ (rankStep n mat s).rankedNum := by
  have h : (rankStep n mat s).rankedNum =
      s.rankedNum + ((Finset.range n).filter fun i => s.cnt i = 0).card := rfl
  omega

/-- While some row is unranked, an iteration ranks at least one row: among
the unranked rows the domination relation has a minimal element, whose
dominated count is therefore zero. -/
theorem step_progress {n : ℕ} {mat : ℕ → ℕ → Bool} {k : ℕ} {s : RankState}
    (inv : LoopInv n mat k s)
    (htr : ∀ a b c, mat a b = true → mat b c = true → mat a c = true)
    (hirr : ∀ a, mat a a = false) (h : s.rankedNum < n) :
    s.rankedNum < (rankStep n mat s).rankedNum := by
  have hc := inv.card_eq
  have hne : (Ust n s).Nonempty := by
    rw [← Finset.card_pos]
    omega
  obtain ⟨j, hjU, hjmin⟩ := exists_undominated hne htr hirr
  have hcnt : s.cnt j = 0 := by
    have := inv.cnt_eq j hjU
    have hempty : ((Ust n s).filter fun i => mat j i = true) = ∅ := by
      rw [Finset.filter_eq_empty_iff]
      intro i hi
      rw [hjmin i hi]
      simp
    rw [hempty] at this
    simpa using this
  have hjr : j < n := by
    have := (Finset.mem_filter.mp hjU).1
    exact Finset.mem_range.mp this
  have hZne : ((Finset.range n).filter fun i => s.cnt i = 0).Nonempty :=
    ⟨j, Finset.mem_filter.mpr ⟨Finset.mem_range.mpr hjr, hcnt⟩⟩
  have hpos := Finset.card_pos.mpr hZne
  have hrn : (rankStep n mat s).rankedNum =
      s.rankedNum + ((Finset.range n).filter fun i => s.cnt i = 0).card := rfl
  omega

/-- The ranked counter never exceeds the number of rows. -/
theorem rankedNum_le {n : ℕ} {mat : ℕ → ℕ → Bool} {k : ℕ} {s : RankState}
    (inv : LoopInv n mat k s) : s.rankedNum ≤ n := by
  have := inv.card_eq
  omega

/-- After k iterations at least min k n rows are ranked. -/
theorem iterate_reach (n : ℕ) (mat : ℕ → ℕ → Bool)
    (htr : ∀ a b c, mat a b = true → mat b c = true → mat a c = true)
    (hirr : ∀ a, mat a a = false) (k : ℕ) :
    min k n ≤ ((rankStep n mat)^[k] (initState n mat)).rankedNum := by
  induction k with
  | zero => simp
  | succ k ih =>
    rw [Function.iterate_succ_apply']
    have hle := step_rankedNum_le n mat ((rankStep n mat)^[k] (initState n mat))
    by_cases hfull : n ≤ ((rankStep n mat)^[k] (initState n mat)).rankedNum
    · omega
    · have hp := step_progress (loopInv_iterate n mat k) htr hirr (by omega)
      omega

/-! ### Relating the fueled loop to iteration counts -/

/-- A loop whose guard is already false returns its state unchanged. -/
theorem rankLoop_stop {n : ℕ} {mat : ℕ → ℕ → Bool} {nb : ℤ} {s : RankState}
    (h : nb ≤ (s.rankedNum : ℤ)) (fuel : ℕ) : rankLoop n mat nb fuel s = s := by
  cases fuel with
  | zero => rfl
  | succ fuel =>
    rw [rankLoop, if_neg (by omega)]

/-- The fueled loop is an iteration of the step function, stopped at the
first state satisfying the guard or at fuel exhaustion. -/
theorem rankLoop_eq_iterate (n : ℕ) (mat : ℕ → ℕ → Bool) (nb : ℤ) :
    ∀ (fuel : ℕ) (s : RankState),
      ∃ k ≤ fuel, rankLoop n mat nb fuel s = (rankStep n mat)^[k] s ∧
        (∀ j < k, (((rankStep n mat)^[j] s).rankedNum : ℤ) < nb) ∧
        (k < fuel → nb ≤ (((rankStep n mat)^[k] s).rankedNum : ℤ))
  | 0, s => ⟨0, le_refl 0, rfl, by omega, by omega⟩
  | fuel + 1, s => by
    by_cases hg : (s.rankedNum : ℤ) < nb
    · obtain ⟨k, hk, heq, hlt, hge⟩ := rankLoop_eq_iterate n mat nb fuel
        (rankStep n mat s)
      refine ⟨k + 1, by omega, ?_, ?_, ?_⟩
      · rw [rankLoop, if_pos hg, heq, Function.iterate_succ_apply]
      · intro j hj
        cases j with
        | zero => simpa using hg
        | succ j =>
          rw [Function.iterate_succ_apply]
          exact hlt j (by omega)
      · intro h
        rw [Function.iterate_succ_apply]
        exact hge (by omega)
    · exact ⟨0, by omega,
        by rw [rankLoop, if_neg hg, Function.iterate_zero_apply], by omega,
        fun _ => by simpa using hg⟩

/-- Splitting the fuel of the loop. -/
theorem rankLoop_add (n : ℕ) (mat : ℕ → ℕ → Bool) (nb : ℤ) :
    ∀ (f g : ℕ) (s : RankState),
      rankLoop n mat nb (f + g) s = rankLoop n mat nb g (rankLoop n mat nb f s)
  | 0, g, s => by
    rw [Nat.zero_add]
    rfl
  | f + 1, g, s => by
    by_cases hg : (s.rankedNum : ℤ) < nb
    · have : f + 1 + g = (f + g) + 1 := by omega
      rw [this, rankLoop, if_pos hg, rankLoop, if_pos hg,
        rankLoop_add n mat nb f g (rankStep n mat s)]
    · rw [rankLoop, if_neg hg, rankLoop_stop (by omega), rankLoop_stop (by omega)]

/-- With fuel equal to the row count and a threshold at most the row count
over a rectangular matrix, the loop stops with the guard false: the Python
while loop terminates after at most n iterations. -/
theorem rankLoop_terminates {rows : List (List Val)} (hR : Rect rows)
    {nb : ℤ} (hnb : nb ≤ (rows.length : ℤ)) :
    nb ≤ ((rankLoop rows.length (matOf rows) nb rows.length
      (initState rows.length (matOf rows))).rankedNum : ℤ) := by
  obtain ⟨k, hk, heq, hlt, hge⟩ := rankLoop_eq_iterate rows.length (matOf rows)
    nb rows.length (initState rows.length (matOf rows))
  rw [heq]
  rcases Nat.lt_or_ge k rows.length with h | h
  · exact hge h
  · have hkn : k = rows.length := by omega
    have := iterate_reach rows.length (matOf rows)
      (fun a b c => matOf_trans hR) (matOf_irrefl rows) k
    rw [hkn] at this ⊢
    simp only [min_self] at this
    omega

/-- Extra fuel beyond the row count changes nothing, for any threshold at
most the row count: the model with fuel n computes the Python fixpoint. -/
theorem rankLoop_fuel_irrelevant {rows : List (List Val)} (hR : Rect rows)
    {nb : ℤ} (hnb : nb ≤ (rows.length : ℤ)) {fuel : ℕ}
    (hf : rows.length ≤ fuel) :
    rankLoop rows.length (matOf rows) nb fuel
        (initState rows.length (matOf rows)) =
      rankLoop rows.length (matOf rows) nb rows.length
        (initState rows.length (matOf rows)) := by
  have hsplit : fuel = rows.length + (fuel - rows.length) := by omega
  rw [hsplit, rankLoop_add, rankLoop_stop (rankLoop_terminates hR hnb)]

/-! ### Persistence of assigned ranks across iterations -/

/-- A rank assigned by iteration k is still there, unchanged, at any later
iteration: its dominated count is negative, so it is never reassigned. -/
theorem ranks_persist (n : ℕ) (mat : ℕ → ℕ → Bool) {k l : ℕ} (hkl : k ≤ l)
    {j : ℕ} (hj : j < n)
    (h : ((rankStep n mat)^[k] (initState n mat)).ranks j ≠ -1) :
    ((rankStep n mat)^[l] (initState n mat)).ranks j =
      ((rankStep n mat)^[k] (initState n mat)).ranks j := by
  induction l, hkl using Nat.le_induction with
  | base => rfl
  | succ l hkl ih =>
    rw [Function.iterate_succ_apply', step_ranks_def]
    have inv := loopInv_iterate n mat l
    have hne : ((rankStep n mat)^[l] (initState n mat)).ranks j ≠ -1 := by
      rw [ih]
      exact h
    have hcnt : ((rankStep n mat)^[l] (initState n mat)).cnt j < 0 := by
      by_contra hge
      exact hne (inv.ranks_unset j hj (by omega))
    rw [if_neg (by omega), ih]

/-- A row unranked at iteration t and ranked at a later iteration received a
rank at least t: rank values grow with the iteration index. -/
theorem ranks_late (n : ℕ) (mat : ℕ → ℕ → Bool) {t K : ℕ} (htK : t ≤ K)
    {j : ℕ} (hj : j < n)
    (hunset : ((rankStep n mat)^[t] (initState n mat)).ranks j = -1)
    (hset : ((rankStep n mat)^[K] (initState n mat)).ranks j ≠ -1) :
    (t : ℤ) ≤ ((rankStep n mat)^[K] (initState n mat)).ranks j := by
  induction K, htK using Nat.le_induction with
  | base => exact absurd hunset hset
  | succ K hK ih =>
    by_cases hprev : ((rankStep n mat)^[K] (initState n mat)).ranks j = -1
    · rw [Function.iterate_succ_apply', step_ranks_def]
      rw [Function.iterate_succ_apply', step_ranks_def] at hset
      by_cases hbr : j < n ∧ ((rankStep n mat)^[K] (initState n mat)).cnt j = 0
      · rw [if_pos hbr]
        have hr := (loopInv_iterate n mat K).rank_eq
        omega
      · rw [if_neg hbr]
        rw [if_neg hbr] at hset
        exact absurd hprev hset
    · rw [Function.iterate_succ_apply', step_ranks_def, if_neg (by
        have inv := loopInv_iterate n mat K
        have hcnt : ((rankStep n mat)^[K] (initState n mat)).cnt j < 0 := by
          by_contra hge
          exact hprev (inv.ranks_unset j hj (by omega))
        omega)]
      exact ih hprev

/-- Reading an entry of the materialised rank list. -/
theorem map_range_getD {n j : ℕ} (hj : j < n) (f : ℕ → ℤ) (d : ℤ) :
    ((List.range n).map f).getD j d = f j := by
  rw [List.getD_eq_getElem?_getD, List.getElem?_map, List.getElem?_range hj]
  rfl

/-- The final state of the full ranking has every row ranked between zero
and the returned bottom rank. -/
theorem full_state_ranked {rows : List (List Val)} (hR : Rect rows)
    {j : ℕ} (hj : j < rows.length) :
    0 ≤ (rankLoop rows.length (matOf rows) (rows.length : ℤ) rows.length
        (initState rows.length (matOf rows))).ranks j ∧
      (rankLoop rows.length (matOf rows) (rows.length : ℤ) rows.length
        (initState rows.length (matOf rows))).ranks j ≤
      (rankLoop rows.length (matOf rows) (rows.length : ℤ) rows.length
        (initState rows.length (matOf rows))).rank := by
  obtain ⟨k, hk, heq, hlt, hge⟩ := rankLoop_eq_iterate rows.length (matOf rows)
    (rows.length : ℤ) rows.length (initState rows.length (matOf rows))
  have hterm := rankLoop_terminates hR (le_refl (rows.length : ℤ))
  rw [heq] at hterm ⊢
  have inv := loopInv_iterate rows.length (matOf rows) k
  have hall : (Ust rows.length ((rankStep rows.length (matOf rows))^[k]
      (initState rows.length (matOf rows)))).card = 0 := by
    have := inv.card_eq
    omega
  have hjnot : j ∉ Ust rows.length ((rankStep rows.length (matOf rows))^[k]
      (initState rows.length (matOf rows))) := by
    rw [Finset.card_eq_zero] at hall
    rw [hall]
    simp
  have hcnt : ((rankStep rows.length (matOf rows))^[k]
      (initState rows.length (matOf rows))).cnt j < 0 := by
    by_contra hge2
    exact hjnot (Finset.mem_filter.mpr ⟨Finset.mem_range.mpr hj, by omega⟩)
  exact inv.ranks_set j hj hcnt

/-! ### Claim C1 -/

/-- C1 counterexample: the claim says a null objective value normalizes to
positive infinity for every direction, but under MAXIMIZE the code first
replaces null by positive infinity and then negates, producing negative
infinity. -/
theorem C1_counterexample :
    _normalize_value none StudyDirection.maximize ≠ Val.pinf ∧
      _normalize_value none StudyDirection.maximize = Val.ninf := by
  constructor
  · decide
  · rfl

/-- C1 amended: a null value normalizes to positive infinity under MINIMIZE
but to negative infinity under MAXIMIZE, because the null check substitutes
positive infinity before the direction negation is applied. -/
theorem C1_normalize_null :
    _normalize_value none StudyDirection.minimize = Val.pinf ∧
      _normalize_value none StudyDirection.maximize = Val.ninf := by
  constructor
  · rfl
  · rfl

/-! ### Claim C8 -/

/-- C8: the ranking entry point returns a shape-mismatch error exactly when
a penalty vector with length different from the row count is supplied, and
with no penalty (or a matching one) it always returns a result, never a
partial one: the length check precedes every ranking computation. -/
theorem C8_shape_mismatch_iff :
    (∀ (ov : List (List Val)) (pen : List Val) (nb : Option ℤ),
      (∃ msg, _fast_non_dominated_sort ov (some pen) nb = .error msg) ↔
        pen.length ≠ ov.length) ∧
    (∀ (ov : List (List Val)) (nb : Option ℤ),
      ∃ r, _fast_non_dominated_sort ov none nb = .ok r) := by
  constructor
  · intro ov pen nb
    by_cases h : pen.length = ov.length
    · simp [_fast_non_dominated_sort, h]
    · simp [_fast_non_dominated_sort, h]
  · intro ov nb
    exact ⟨_, rfl⟩

/-- C8 witness: a one-row matrix with an empty penalty vector errors, and
the same matrix without penalty returns a result. -/
theorem C8_witness :
    (∃ msg, _fast_non_dominated_sort [[Val.fin 0]] (some []) none = .error msg) ∧
    (∃ r, _fast_non_dominated_sort [[Val.fin 0]] none none = .ok r) :=
  ⟨(C8_shape_mismatch_iff.1 [[Val.fin 0]] [] none).mpr (by decide),
    C8_shape_mismatch_iff.2 [[Val.fin 0]] none⟩

/-! ### Claim C9 -/

/-- C9: for n_below equal to None, 0, or any integer at most the row count,
the front-peeling loop of the ranking algorithm terminates within at most n
iterations: with fuel n the guard is already false, and any further fuel
leaves the result unchanged. -/
theorem C9_loop_terminates (rows : List (List Val)) (nBelow : Option ℤ)
    (hR : Rect rows)
    (hvalid : nBelow = none ∨ nBelow = some 0 ∨
      ∃ k : ℤ, nBelow = some k ∧ k ≤ (rows.length : ℤ)) :
    nbOf nBelow rows.length ≤
      ((rankLoop rows.length (matOf rows) (nbOf nBelow rows.length)
        rows.length (initState rows.length (matOf rows))).rankedNum : ℤ) ∧
    ∀ fuel, rows.length ≤ fuel →
      rankLoop rows.length (matOf rows) (nbOf nBelow rows.length) fuel
          (initState rows.length (matOf rows)) =
        rankLoop rows.length (matOf rows) (nbOf nBelow rows.length)
          rows.length (initState rows.length (matOf rows)) := by
  have hnb : nbOf nBelow rows.length ≤ (rows.length : ℤ) := by
    rcases hvalid with h | h | ⟨k, hk, hkle⟩
    · rw [h]
      rfl
    · rw [h]
      simp [nbOf]
    · rw [hk]
      simp only [nbOf]
      by_cases h0 : k = 0
      · rw [if_pos h0]
      · rw [if_neg h0]
        exact hkle
  exact ⟨rankLoop_terminates hR hnb,
    fun fuel hf => rankLoop_fuel_irrelevant hR hnb hf⟩

/-- C9 witness at a concrete two-row matrix with default n_below. -/
theorem C9_witness :
    nbOf none 2 ≤
      ((rankLoop 2 (matOf [[Val.fin 0], [Val.fin 1]]) (nbOf none 2) 2
        (initState 2 (matOf [[Val.fin 0], [Val.fin 1]]))).rankedNum : ℤ) ∧
    ∀ fuel, 2 ≤ fuel →
      rankLoop 2 (matOf [[Val.fin 0], [Val.fin 1]]) (nbOf none 2) fuel
          (initState 2 (matOf [[Val.fin 0], [Val.fin 1]])) =
        rankLoop 2 (matOf [[Val.fin 0], [Val.fin 1]]) (nbOf none 2) 2
          (initState 2 (matOf [[Val.fin 0], [Val.fin 1]])) :=
  C9_loop_terminates [[Val.fin 0], [Val.fin 1]] none ⟨1, by decide⟩ (Or.inl rfl)

/-! ### Claim C10 -/

/-- C10 counterexample: with a negative n_below the loop guard is false at
entry, no peeling iteration runs, and the NaN row keeps the -1 sentinel
instead of receiving rank 0, refuting the claim for every n_below. -/
theorem C10_counterexample :
    (_calculate_nondomination_rank [[Val.nan]] (some (-1))).1 = [-1] ∧
      (_calculate_nondomination_rank [[Val.nan]] (some (-1))).1.getD 0 0 ≠ 0 := by
  constructor
  · decide
  · decide

/-- C10 amended: in a rectangular matrix a row containing NaN neither
dominates nor is dominated by any row, and whenever n_below is None, zero
or positive (so that the first peeling iteration runs at all) it receives
rank 0 in that first iteration, which the returned rank list keeps. -/
theorem C10_nan_row_rank_zero (rows : List (List Val)) (nBelow : Option ℤ)
    (i : ℕ) (hR : Rect rows) (hi : i < rows.length)
    (hnan : Val.nan ∈ rows.getD i [])
    (hnb : nBelow = none ∨ ∃ k : ℤ, nBelow = some k ∧ 0 ≤ k) :
    (∀ j, matOf rows i j = false ∧ matOf rows j i = false) ∧
    (rankStep rows.length (matOf rows)
      (initState rows.length (matOf rows))).ranks i = 0 ∧
    (_calculate_nondomination_rank rows nBelow).1.getD i 0 = 0 := by
  obtain ⟨p, hp, hpe⟩ := List.getElem_of_mem hnan
  have hpD : (rows.getD i []).getD p .nan = Val.nan := by
    rw [List.getD_eq_getElem?_getD, List.getElem?_eq_getElem hp, hpe]
    rfl
  obtain ⟨K, hK⟩ := hR
  have hiK : (rows.getD i []).length = K := by
    have he : rows.getD i [] = rows[i] := by
      rw [List.getD_eq_getElem?_getD, List.getElem?_eq_getElem hi]
      rfl
    rw [he]
    exact hK _ (List.getElem_mem hi)
  have hmat : ∀ j, matOf rows i j = false ∧ matOf rows j i = false := by
    intro j
    by_cases hj : j < rows.length
    · have hjK : (rows.getD j []).length = K := by
        have he : rows.getD j [] = rows[j] := by
          rw [List.getD_eq_getElem?_getD, List.getElem?_eq_getElem hj]
          rfl
        rw [he]
        exact hK _ (List.getElem_mem hj)
      constructor
      · by_contra h
        have h : matOf rows i j = true := by
          cases hm : matOf rows i j
          · exact absurd hm h
          · rfl
        have := (dominatedBy_iff.mp h).1 p (by rw [hiK, hjK]; omega)
        rw [hpD] at this
        have := (vle_not_nan this).2
        simp [Val.isNan] at this
      · by_contra h
        have h : matOf rows j i = true := by
          cases hm : matOf rows j i
          · exact absurd hm h
          · rfl
        have := (dominatedBy_iff.mp h).1 p (by rw [hiK, hjK]; omega)
        rw [hpD] at this
        have := (vle_not_nan this).1
        simp [Val.isNan] at this
    · have he : rows.getD j [] = [] := by
        rw [List.getD_eq_getElem?_getD, List.getElem?_eq_none (by omega)]
        rfl
      constructor
      · rw [matOf, he, dominatedBy_nil_right]
      · rw [matOf, he, dominatedBy_nil_left]
  have hcnt0 : (initState rows.length (matOf rows)).cnt i = 0 := by
    have hempty : ((Finset.range rows.length).filter
        fun k => matOf rows i k = true) = ∅ := by
      rw [Finset.filter_eq_empty_iff]
      intro k hk
      rw [(hmat k).1]
      simp
    simp only [initState, hempty]
    simp
  have hstep1 : (rankStep rows.length (matOf rows)
      (initState rows.length (matOf rows))).ranks i = 0 := by
    rw [step_ranks_def, if_pos ⟨hi, hcnt0⟩]
    rfl
  refine ⟨hmat, hstep1, ?_⟩
  have hnb1 : 1 ≤ nbOf nBelow rows.length := by
    rcases hnb with h | ⟨k, hk, hk0⟩
    · rw [h]
      simp only [nbOf]
      omega
    · rw [hk]
      simp only [nbOf]
      by_cases h0 : k = 0
      · rw [if_pos h0]
        omega
      · rw [if_neg h0]
        omega
  obtain ⟨k, hk, heq, hlt, hge⟩ := rankLoop_eq_iterate rows.length (matOf rows)
    (nbOf nBelow rows.length) rows.length (initState rows.length (matOf rows))
  have hk1 : 1 ≤ k := by
    by_contra h
    have hk0 : k = 0 := by omega
    have := hge (by omega)
    rw [hk0] at this
    simp only [Function.iterate_zero_apply] at this
    have h0 : (initState rows.length (matOf rows)).rankedNum = 0 := rfl
    omega
  have hook : ((rankStep rows.length (matOf rows))^[1]
      (initState rows.length (matOf rows))).ranks i = 0 := by
    rw [Function.iterate_one]
    exact hstep1
  have hpers := ranks_persist rows.length (matOf rows) hk1 hi (by
    rw [hook]
    omega)
  simp only [_calculate_nondomination_rank]
  rw [map_range_getD hi, heq, hpers, hook]

/-- C10 witness at the one-row NaN matrix with default n_below. -/
theorem C10_witness :
    (∀ j, matOf [[Val.nan]] 0 j = false ∧ matOf [[Val.nan]] j 0 = false) ∧
    (rankStep 1 (matOf [[Val.nan]])
      (initState 1 (matOf [[Val.nan]]))).ranks 0 = 0 ∧
    (_calculate_nondomination_rank [[Val.nan]] none).1.getD 0 0 = 0 :=
  C10_nan_row_rank_zero [[Val.nan]] none 0 ⟨1, by decide⟩ (by decide)
    (by decide) (Or.inl rfl)

/-! ### Claim C7 -/

/-- Two rows reading the same values keep equal counts and ranks across one
iteration of the peeling loop. -/
theorem pair_invariant_step (n : ℕ) (mat : ℕ → ℕ → Bool) {i i2 : ℕ}
    (hmm : ∀ x, mat i x = mat i2 x) (hi : i < n) (hi2 : i2 < n)
    {s : RankState} (h : s.cnt i = s.cnt i2 ∧ s.ranks i = s.ranks i2) :
    (rankStep n mat s).cnt i = (rankStep n mat s).cnt i2 ∧
      (rankStep n mat s).ranks i = (rankStep n mat s).ranks i2 := by
  have hfe : ((Finset.range n).filter fun a => s.cnt a = 0 ∧ mat i a = true) =
      (Finset.range n).filter fun a => s.cnt a = 0 ∧ mat i2 a = true := by
    apply Finset.filter_congr
    intro x _
    rw [hmm x]
  constructor
  · rw [step_cnt_def n mat s hi, step_cnt_def n mat s hi2, h.1, hfe]
  · rw [step_ranks_def, step_ranks_def, h.1, h.2]
    by_cases hc : s.cnt i2 = 0
    · rw [if_pos ⟨hi, hc⟩, if_pos ⟨hi2, hc⟩]
    · rw [if_neg (by tauto), if_neg (by tauto)]

/-- Two rows reading the same values keep equal counts and ranks across the
whole fueled loop. -/
theorem pair_invariant_loop (n : ℕ) (mat : ℕ → ℕ → Bool) (nb : ℤ) {i i2 : ℕ}
    (hmm : ∀ x, mat i x = mat i2 x) (hi : i < n) (hi2 : i2 < n) :
    ∀ (fuel : ℕ) (s : RankState),
      s.cnt i = s.cnt i2 ∧ s.ranks i = s.ranks i2 →
      (rankLoop n mat nb fuel s).cnt i = (rankLoop n mat nb fuel s).cnt i2 ∧
        (rankLoop n mat nb fuel s).ranks i = (rankLoop n mat nb fuel s).ranks i2
  | 0, s, h => h
  | fuel + 1, s, h => by
    by_cases hg : (s.rankedNum : ℤ) < nb
    · rw [rankLoop, if_pos hg]
      exact pair_invariant_loop n mat nb hmm hi hi2 fuel (rankStep n mat s)
        (pair_invariant_step n mat hmm hi hi2 h)
    · rw [rankLoop, if_neg hg]
      exact h

/-- C7: for every objective matrix and every n_below, two rows holding the
same normalized value vector receive the same rank: they never dominate
each other and are dominated by exactly the same rows, so every iteration
treats them identically. -/
theorem C7_equal_rows_equal_rank (rows : List (List Val)) (nBelow : Option ℤ)
    (i i2 : ℕ) (hi : i < rows.length) (hi2 : i2 < rows.length)
    (heq : rows.getD i [] = rows.getD i2 []) :
    (_calculate_nondomination_rank rows nBelow).1.getD i 0 =
      (_calculate_nondomination_rank rows nBelow).1.getD i2 0 := by
  have hmm : ∀ x, matOf rows i x = matOf rows i2 x := by
    intro x
    rw [matOf, matOf, heq]
  have hinit : (initState rows.length (matOf rows)).cnt i =
      (initState rows.length (matOf rows)).cnt i2 := by
    simp only [initState]
    congr 2
    apply Finset.filter_congr
    intro x _
    rw [hmm x]
  have hfin := pair_invariant_loop rows.length (matOf rows)
    (nbOf nBelow rows.length) hmm hi hi2 rows.length
    (initState rows.length (matOf rows)) ⟨hinit, rfl⟩
  simp only [_calculate_nondomination_rank]
  rw [map_range_getD hi, map_range_getD hi2]
  exact hfin.2

/-- C7 witness: two identical one-objective rows share their rank. -/
theorem C7_witness :
    (_calculate_nondomination_rank [[Val.fin 1], [Val.fin 1]] none).1.getD 0 0 =
      (_calculate_nondomination_rank [[Val.fin 1], [Val.fin 1]] none).1.getD 1 0 :=
  C7_equal_rows_equal_rank [[Val.fin 1], [Val.fin 1]] none 0 1 (by decide)
    (by decide) (by decide)

/-! ### Claim C5 -/

/-- C5: ranking with n_below = m between 1 and the row count produces, for
every row whose full rank is at most the bottom rank the partial run
reports, exactly the rank of the full ranking, and leaves the -1 sentinel
on every other row: the loop iterations do not depend on n_below, so the
partial run is a prefix of the full one. -/
theorem C5_partial_consistency (rows : List (List Val)) (m : ℤ)
    (hR : Rect rows) (hm1 : 1 ≤ m) (hmn : m ≤ (rows.length : ℤ)) :
    ∀ j < rows.length,
      ((_calculate_nondomination_rank rows none).1.getD j 0 ≤
          (_calculate_nondomination_rank rows (some m)).2 →
        (_calculate_nondomination_rank rows (some m)).1.getD j 0 =
          (_calculate_nondomination_rank rows none).1.getD j 0) ∧
      ((_calculate_nondomination_rank rows (some m)).2 <
          (_calculate_nondomination_rank rows none).1.getD j 0 →
        (_calculate_nondomination_rank rows (some m)).1.getD j 0 = -1) := by
  intro j hj
  have hnbp : nbOf (some m) rows.length = m := by
    simp only [nbOf]
    rw [if_neg (by omega)]
  have hnbf : nbOf none rows.length = (rows.length : ℤ) := rfl
  obtain ⟨k1, hk1, heq1, hlt1, hge1⟩ := rankLoop_eq_iterate rows.length
    (matOf rows) m rows.length (initState rows.length (matOf rows))
  obtain ⟨k2, hk2, heq2, hlt2, hge2⟩ := rankLoop_eq_iterate rows.length
    (matOf rows) (rows.length : ℤ) rows.length
    (initState rows.length (matOf rows))
  have htermp : m ≤ (((rankStep rows.length (matOf rows))^[k1]
      (initState rows.length (matOf rows))).rankedNum : ℤ) := by
    have := rankLoop_terminates hR hmn
    rw [heq1] at this
    exact this
  have htermf : (rows.length : ℤ) ≤ (((rankStep rows.length (matOf rows))^[k2]
      (initState rows.length (matOf rows))).rankedNum : ℤ) := by
    have := rankLoop_terminates hR (le_refl (rows.length : ℤ))
    rw [heq2] at this
    exact this
  have hk12 : k1 ≤ k2 := by
    by_contra h
    have := hlt1 k2 (by omega)
    omega
  have inv1 := loopInv_iterate rows.length (matOf rows) k1
  simp only [_calculate_nondomination_rank, hnbp, hnbf, heq1, heq2,
    map_range_getD hj]
  by_cases hset : ((rankStep rows.length (matOf rows))^[k1]
      (initState rows.length (matOf rows))).ranks j = -1
  · have hfull0 := full_state_ranked hR hj
    rw [heq2] at hfull0
    have hlate := ranks_late rows.length (matOf rows) hk12 hj hset (by omega)
    have hr1 := inv1.rank_eq
    constructor
    · intro hle
      omega
    · intro hgt
      exact hset
  · have hpers := ranks_persist rows.length (matOf rows) hk12 hj hset
    have hcnt : ((rankStep rows.length (matOf rows))^[k1]
        (initState rows.length (matOf rows))).cnt j < 0 := by
      by_contra hge
      exact hset (inv1.ranks_unset j hj (by omega))
    have hbound := inv1.ranks_set j hj hcnt
    constructor
    · intro hle
      omega
    · intro hgt
      omega

/-- C5 witness: a two-row chain with m = 1 keeps the full rank of the first
front and the sentinel elsewhere. -/
theorem C5_witness :
    (_calculate_nondomination_rank [[Val.fin 0], [Val.fin 1]] (some 1)).1.getD 0 0 =
      (_calculate_nondomination_rank [[Val.fin 0], [Val.fin 1]] none).1.getD 0 0 ∧
    (_calculate_nondomination_rank [[Val.fin 0], [Val.fin 1]] (some 1)).1.getD 1 0 = -1 :=
  ⟨(C5_partial_consistency [[Val.fin 0], [Val.fin 1]] 1 ⟨1, by decide⟩
      (by decide) (by decide) 0 (by decide)).1 (by decide),
    (C5_partial_consistency [[Val.fin 0], [Val.fin 1]] 1 ⟨1, by decide⟩
      (by decide) (by decide) 1 (by decide)).2 (by decide)⟩

/-! ### Bridging the trial-level dominance and the matrix relation -/

/-- A true Python float-list equality forces real list equality (a NaN entry
would already have refused to equal itself). -/
theorem valListEq_eq {a b : List Val} (h : valListEq a b = true) : a = b := by
  obtain ⟨hl, hp⟩ := valListEq_iff.mp h
  apply List.ext_getElem hl
  intro k hk1 hk2
  have hbeq := vbeq_eq (hp k hk1)
  rw [List.getD_eq_getElem?_getD, List.getElem?_eq_getElem hk1,
    List.getD_eq_getElem?_getD, List.getElem?_eq_getElem hk2] at hbeq
  simpa using hbeq

/-- Length of a normalized vector: the zip truncates at the shorter input. -/
theorem normalizedValues_length (t : FrozenTrial) (dirs : List StudyDirection) :
    (normalizedValues t dirs).length = min t.values.length dirs.length := by
  simp [normalizedValues]

/-- Between complete trials whose normalized vectors have equal length, the
dominance decision of _dominates coincides with the domination-matrix entry
on the normalized vectors: the not-equal-and-pointwise-le formulation equals
the pointwise-ge-and-somewhere-gt formulation. -/
theorem dominatesCore_eq_dominatedBy {o t : FrozenTrial}
    {dirs : List StudyDirection} (ho : o.state = TrialState.complete)
    (ht : t.state = TrialState.complete)
    (hlen : (normalizedValues o dirs).length = (normalizedValues t dirs).length) :
    dominatesCore o t dirs =
      dominatedBy (normalizedValues t dirs) (normalizedValues o dirs) := by
  have hcore : dominatesCore o t dirs =
      (if valListEq (normalizedValues o dirs) (normalizedValues t dirs) then false
       else ((normalizedValues o dirs).zip (normalizedValues t dirs)).all
         fun x => Val.le x.1 x.2) := by
    simp [dominatesCore, ho, ht]
  rw [hcore]
  by_cases he : valListEq (normalizedValues o dirs) (normalizedValues t dirs) = true
  · rw [if_pos he, valListEq_eq he, dominatedBy_self]
  · rw [if_neg he]
    cases hall : ((normalizedValues o dirs).zip (normalizedValues t dirs)).all
        fun x => Val.le x.1 x.2 with
    | false =>
      symm
      rw [← Bool.not_eq_true]
      intro hdb
      have hge := (dominatedBy_iff.mp hdb).1
      have : ((normalizedValues o dirs).zip (normalizedValues t dirs)).all
          (fun x => Val.le x.1 x.2) = true := by
        rw [zip_all_iff Val.nan]
        intro k hk
        exact hge k (by omega)
      rw [hall] at this
      exact absurd this (by simp)
    | true =>
      symm
      rw [dominatedBy_iff]
      have hge := (zip_all_iff Val.nan (fun a b => Val.le a b)
        (normalizedValues o dirs) (normalizedValues t dirs)).mp hall
      constructor
      · intro k hk
        exact hge k (by omega)
      · have hnall : ¬ ∀ k, k < (normalizedValues o dirs).length →
            Val.beq ((normalizedValues o dirs).getD k .nan)
              ((normalizedValues t dirs).getD k .nan) = true := by
          intro hallb
          exact he (valListEq_iff.mpr ⟨hlen, hallb⟩)
        push_neg at hnall
        obtain ⟨k, hk, hbne⟩ := hnall
        have hkm : k < min (normalizedValues o dirs).length
            (normalizedValues t dirs).length := by omega
        have hle := hge k hkm
        have hbne : Val.beq ((normalizedValues o dirs).getD k .nan)
            ((normalizedValues t dirs).getD k .nan) = false := by
          cases hb : Val.beq ((normalizedValues o dirs).getD k .nan)
              ((normalizedValues t dirs).getD k .nan)
          · rfl
          · exact absurd hb hbne
        exact ⟨k, by omega, (vle_beq_lt hle).mp hbne⟩

/-- A row of the full ranking holds rank zero exactly when no row of the
matrix dominates it. -/
theorem nondomination_rank_zero_iff (rows : List (List Val)) {j : ℕ} (hj : j < rows.length) :
    (_calculate_nondomination_rank rows none).1.getD j 0 = 0 ↔
      ∀ x, x < rows.length → matOf rows j x = false := by
  have hcnt_iff : (initState rows.length (matOf rows)).cnt j = 0 ↔
      ∀ x, x < rows.length → matOf rows j x = false := by
    simp only [initState]
    rw [Nat.cast_eq_zero, Finset.card_eq_zero, Finset.filter_eq_empty_iff]
    constructor
    · intro h x hx
      have := h (Finset.mem_range.mpr hx)
      cases hm : matOf rows j x
      · rfl
      · exact absurd hm this
    · intro h x hx
      rw [h x (Finset.mem_range.mp hx)]
      simp
  obtain ⟨k, hk, heq, hlt, hge⟩ := rankLoop_eq_iterate rows.length (matOf rows)
    (nbOf none rows.length) rows.length (initState rows.length (matOf rows))
  have hk1 : 1 ≤ k := by
    by_contra h
    have hk0 : k = 0 := by omega
    have := hge (by omega)
    rw [hk0] at this
    simp only [Function.iterate_zero_apply] at this
    have h0 : (initState rows.length (matOf rows)).rankedNum = 0 := rfl
    simp only [nbOf] at this
    omega
  simp only [_calculate_nondomination_rank, map_range_getD hj, heq]
  constructor
  · intro h0
    rw [← hcnt_iff]
    by_contra hcnt
    have hit1 : ((rankStep rows.length (matOf rows))^[1]
        (initState rows.length (matOf rows))).ranks j = -1 := by
      rw [Function.iterate_one, step_ranks_def, if_neg (by tauto)]
      rfl
    by_cases hset : ((rankStep rows.length (matOf rows))^[k]
        (initState rows.length (matOf rows))).ranks j = -1
    · omega
    · have := ranks_late rows.length (matOf rows) hk1 hj hit1 hset
      omega
  · intro hnod
    have hcnt := hcnt_iff.mpr hnod
    have hit1 : ((rankStep rows.length (matOf rows))^[1]
        (initState rows.length (matOf rows))).ranks j = 0 := by
      rw [Function.iterate_one, step_ranks_def, if_pos ⟨hj, hcnt⟩]
      rfl
    have := ranks_persist rows.length (matOf rows) hk1 hj (by rw [hit1]; omega)
    rw [this, hit1]

/-! ### Claim C4 -/

/-- C4: over complete trials whose value vectors match the directions, a
trial is in the ND Pareto front exactly when the full ranking of the matrix
of normalized vectors assigns its row rank zero. -/
theorem C4_nd_front_iff_rank_zero (trials : List FrozenTrial)
    (dirs : List StudyDirection)
    (hcomp : ∀ t ∈ trials, t.state = TrialState.complete)
    (hlen : ∀ t ∈ trials, t.values.length = dirs.length)
    (i : ℕ) (hi : i < trials.length) :
    trials[i] ∈ _get_pareto_front_trials_nd trials dirs ↔
      (_calculate_nondomination_rank
        (trials.map fun t => normalizedValues t dirs) none).1.getD i 0 = 0 := by
  have hfilter : trials.filter
      (fun t => decide (t.state = TrialState.complete)) = trials := by
    rw [List.filter_eq_self]
    intro a ha
    simpa using hcomp a ha
  have hrows_len : (trials.map fun t => normalizedValues t dirs).length =
      trials.length := by simp
  have hrow : ∀ (x : ℕ) (hx : x < trials.length),
      (trials.map fun t => normalizedValues t dirs).getD x [] =
        normalizedValues (trials.get ⟨x, hx⟩) dirs := by
    intro x hx
    rw [List.getD_eq_getElem?_getD, List.getElem?_map,
      List.getElem?_eq_getElem hx]
    rfl
  have hNlen : ∀ t ∈ trials, (normalizedValues t dirs).length = dirs.length := by
    intro t ht
    rw [normalizedValues_length, hlen t ht, min_self]
  have hbridge : ∀ (x : ℕ) (hx : x < trials.length),
      matOf (trials.map fun t => normalizedValues t dirs) i x =
        dominatesCore (trials.get ⟨x, hx⟩) (trials.get ⟨i, hi⟩) dirs := by
    intro x hx
    rw [matOf, hrow i hi, hrow x hx]
    exact (dominatesCore_eq_dominatedBy (hcomp _ (List.getElem_mem hx))
      (hcomp _ (List.getElem_mem hi))
      (by rw [hNlen _ (List.getElem_mem hx), hNlen _ (List.getElem_mem hi)])).symm
  rw [nondomination_rank_zero_iff _ (by rw [hrows_len]; exact hi)]
  simp only [_get_pareto_front_trials_nd, hfilter]
  rw [List.mem_filter]
  simp only [List.getElem_mem hi, true_and]
  constructor
  · intro h x hx
    rw [Bool.not_eq_true'] at h
    rw [hrows_len] at hx
    have hmem : trials[x] ∈ trials := List.getElem_mem hx
    have hfalse := List.any_eq_false.mp h trials[x] hmem
    rw [hbridge x hx]
    cases hc : dominatesCore (trials.get ⟨x, hx⟩) (trials.get ⟨i, hi⟩) dirs
    · rfl
    · exact absurd hc hfalse
  · intro h
    rw [Bool.not_eq_true', List.any_eq_false]
    intro o ho
    obtain ⟨x, hx, hxe⟩ := List.getElem_of_mem ho
    have hfalse := h x (by rw [hrows_len]; exact hx)
    rw [hbridge x hx] at hfalse
    rw [← hxe]
    show ¬ dominatesCore (trials.get ⟨x, hx⟩) (trials.get ⟨i, hi⟩) dirs = true
    rw [hfalse]
    simp

/-- C4 witness: in a three-trial minimization instance the dominated trial
is outside the front and has nonzero rank, via the equivalence. -/
theorem C4_witness :
    ({ number := 2, state := TrialState.complete,
       values := [some (Val.fin 3), some (Val.fin 3)] } : FrozenTrial) ∈
      _get_pareto_front_trials_nd
        [{ number := 0, state := TrialState.complete,
           values := [some (Val.fin 1), some (Val.fin 2)] },
         { number := 1, state := TrialState.complete,
           values := [some (Val.fin 2), some (Val.fin 1)] },
         { number := 2, state := TrialState.complete,
           values := [some (Val.fin 3), some (Val.fin 3)] }]
        [StudyDirection.minimize, StudyDirection.minimize] ↔
    (_calculate_nondomination_rank
      ([{ number := 0, state := TrialState.complete,
          values := [some (Val.fin 1), some (Val.fin 2)] },
        { number := 1, state := TrialState.complete,
          values := [some (Val.fin 2), some (Val.fin 1)] },
        { number := 2, state := TrialState.complete,
          values := [some (Val.fin 3), some (Val.fin 3)] }].map
        fun t => normalizedValues t
          [StudyDirection.minimize, StudyDirection.minimize]) none).1.getD 2 0 = 0 :=
  C4_nd_front_iff_rank_zero _ _ (by decide) (by decide) 2 (by decide)

/-! ### Claim C6 -/

/-- No trial ever passes the dominance test against itself: either the
vectors are Python-equal (equal branch returns false), or some coordinate is
NaN and already fails the pointwise comparison. -/
theorem dominatesCore_self (a : FrozenTrial) (dirs : List StudyDirection) :
    dominatesCore a a dirs = false := by
  by_cases ha : a.state = TrialState.complete
  · have hsh : dominatesCore a a dirs =
        (if valListEq (normalizedValues a dirs) (normalizedValues a dirs)
          then false
          else ((normalizedValues a dirs).zip (normalizedValues a dirs)).all
            fun x => Val.le x.1 x.2) := by
      simp [dominatesCore, ha]
    rw [hsh]
    by_cases hq : valListEq (normalizedValues a dirs)
        (normalizedValues a dirs) = true
    · rw [if_pos hq]
    · rw [if_neg hq]
      have hnall : ¬ ∀ k, k < (normalizedValues a dirs).length →
          Val.beq ((normalizedValues a dirs).getD k .nan)
            ((normalizedValues a dirs).getD k .nan) = true := by
        intro hallb
        exact hq (valListEq_iff.mpr ⟨rfl, hallb⟩)
      push_neg at hnall
      obtain ⟨k, hk, hbne⟩ := hnall
      have hbf : Val.beq ((normalizedValues a dirs).getD k .nan)
          ((normalizedValues a dirs).getD k .nan) = false := by
        cases hb : Val.beq ((normalizedValues a dirs).getD k .nan)
            ((normalizedValues a dirs).getD k .nan)
        · rfl
        · exact absurd hb hbne
      cases hall : ((normalizedValues a dirs).zip
          (normalizedValues a dirs)).all fun x => Val.le x.1 x.2
      · rfl
      · exfalso
        have := (zip_all_iff Val.nan (fun x y => Val.le x y) _ _).mp hall k
          (by omega)
        rw [vbeq_self_false hbf] at this
        exact absurd this (by simp)
  · simp [dominatesCore, ha]

/-- C6: the dominance relation is irreflexive (the comparison of a trial
with itself never affirms dominance, for any direction vector) and
asymmetric (between trials with distinct normalized vectors, a positive
dominance answer one way forces a negative answer the other way). -/
theorem C6_irreflexive_asymmetric :
    (∀ (a : FrozenTrial) (dirs : List StudyDirection),
      _dominates a a dirs ≠ Except.ok true) ∧
    (∀ (a b : FrozenTrial) (dirs : List StudyDirection),
      normalizedValues a dirs ≠ normalizedValues b dirs →
      _dominates a b dirs = Except.ok true →
      _dominates b a dirs = Except.ok false) := by
  constructor
  · intro a dirs
    by_cases ha : a.state = TrialState.complete
    · by_cases hd : a.values.length = dirs.length
      · rw [_dominates, if_neg (by simp [ha]), if_neg (by simp [ha]),
          if_neg (by simp), if_neg (by simp [hd]), dominatesCore_self]
        simp
      · rw [_dominates, if_neg (by simp [ha]), if_neg (by simp [ha]),
          if_neg (by simp), if_pos (by simp [hd])]
        simp
    · rw [_dominates, if_pos (by simp [ha])]
      simp
  · intro a b dirs hne hab
    have ha : a.state = TrialState.complete := by
      by_contra h
      rw [_dominates, if_pos h] at hab
      exact absurd hab (by simp)
    by_cases hb : b.state = TrialState.complete
    · have hvl : a.values.length = b.values.length := by
        by_contra h
        rw [_dominates, if_neg (by simp [ha]), if_neg (by simp [hb]),
          if_pos h] at hab
        exact absurd hab (by simp)
      have hdl : a.values.length = dirs.length := by
        by_contra h
        rw [_dominates, if_neg (by simp [ha]), if_neg (by simp [hb]),
          if_neg (by simp [hvl]), if_pos h] at hab
        exact absurd hab (by simp)
      have hcore : dominatesCore a b dirs = true := by
        rw [_dominates, if_neg (by simp [ha]), if_neg (by simp [hb]),
          if_neg (by simp [hvl]), if_neg (by simp [hdl])] at hab
        exact Except.ok.inj hab
      have hl : (normalizedValues a dirs).length =
          (normalizedValues b dirs).length := by
        rw [normalizedValues_length, normalizedValues_length, hvl]
      have hba : dominatesCore b a dirs = false := by
        have hsh : dominatesCore b a dirs =
            (if valListEq (normalizedValues b dirs) (normalizedValues a dirs)
              then false
              else ((normalizedValues b dirs).zip
                (normalizedValues a dirs)).all fun x => Val.le x.1 x.2) := by
          simp [dominatesCore, ha, hb]
        rw [hsh]
        by_cases hq : valListEq (normalizedValues b dirs)
            (normalizedValues a dirs) = true
        · rw [if_pos hq]
        · rw [if_neg hq]
          cases hall : ((normalizedValues b dirs).zip
              (normalizedValues a dirs)).all fun x => Val.le x.1 x.2
          · rfl
          · exfalso
            have hsh2 : dominatesCore a b dirs =
                (if valListEq (normalizedValues a dirs)
                    (normalizedValues b dirs)
                  then false
                  else ((normalizedValues a dirs).zip
                    (normalizedValues b dirs)).all fun x => Val.le x.1 x.2) := by
              simp [dominatesCore, ha, hb]
            rw [hsh2] at hcore
            by_cases hq2 : valListEq (normalizedValues a dirs)
                (normalizedValues b dirs) = true
            · rw [if_pos hq2] at hcore
              exact absurd hcore (by simp)
            · rw [if_neg hq2] at hcore
              have h1 := (zip_all_iff Val.nan (fun x y => Val.le x y)
                _ _).mp hcore
              have h2 := (zip_all_iff Val.nan (fun x y => Val.le x y)
                _ _).mp hall
              apply hne
              apply List.ext_getElem hl
              intro k hk1 hk2
              have heqk := vle_antisymm (h1 k (by omega)) (h2 k (by omega))
              rw [List.getD_eq_getElem?_getD, List.getElem?_eq_getElem hk1,
                List.getD_eq_getElem?_getD,
                List.getElem?_eq_getElem hk2] at heqk
              simpa using heqk
      rw [_dominates, if_neg (by simp [hb]), if_neg (by simp [ha]),
        if_neg (by simp [hvl]), if_neg (by simp [← hvl, hdl]), hba]
    · rw [_dominates, if_pos (by simp [hb])]

/-- C6 witness: a one-objective pair where dominance holds one way and is
refuted the other way, plus the reflexive case. -/
theorem C6_witness :
    _dominates
        { number := 1, state := TrialState.complete,
          values := [some (Val.fin 1)] }
        { number := 0, state := TrialState.complete,
          values := [some (Val.fin 0)] } [StudyDirection.minimize] =
      Except.ok false ∧
    _dominates
        { number := 0, state := TrialState.complete,
          values := [some (Val.fin 0)] }
        { number := 0, state := TrialState.complete,
          values := [some (Val.fin 0)] } [StudyDirection.minimize] ≠
      Except.ok true :=
  ⟨C6_irreflexive_asymmetric.2
      { number := 0, state := TrialState.complete,
        values := [some (Val.fin 0)] }
      { number := 1, state := TrialState.complete,
        values := [some (Val.fin 1)] }
      [StudyDirection.minimize] (by decide) (by rfl),
    C6_irreflexive_asymmetric.1
      { number := 0, state := TrialState.complete,
        values := [some (Val.fin 0)] } [StudyDirection.minimize]⟩

/-! ### Helpers for the constraint-aware ranking -/

/-- Reading an entry of a mapped list below its length. -/
theorem getD_map_of_lt {α β : Type} (f : α → β) (l : List α) {j : ℕ}
    (hj : j < l.length) (d : β) : (l.map f).getD j d = f l[j] := by
  rw [List.getD_eq_getElem?_getD, List.getElem?_map,
    List.getElem?_eq_getElem hj]
  rfl

/-- Reading an entry of a plain list below its length. -/
theorem getD_of_lt {α : Type} (l : List α) {j : ℕ} (hj : j < l.length)
    (d : α) : l.getD j d = l[j] := by
  rw [List.getD_eq_getElem?_getD, List.getElem?_eq_getElem hj]
  rfl

/-- Every selected element was an element of the original list. -/
theorem maskSelect_mem {α : Type} {mask : List Bool} {xs : List α} {x : α}
    (h : x ∈ maskSelect mask xs) : x ∈ xs := by
  simp only [maskSelect, List.mem_map, List.mem_filter] at h
  obtain ⟨p, ⟨hp, _⟩, hpe⟩ := h
  rw [← hpe]
  exact (List.of_mem_zip hp).2

/-- The selected sub-list has one element per true mask entry. -/
theorem maskSelect_length {α : Type} :
    ∀ (mask : List Bool) (xs : List α), mask.length = xs.length →
      (maskSelect mask xs).length = mask.countP id
  | [], xs, _ => by simp [maskSelect]
  | b :: mask, [], h => by simp at h
  | b :: mask, x :: xs, h => by
    have hlen : mask.length = xs.length := by simpa using h
    cases b with
    | false =>
      simp only [maskSelect, List.zip_cons_cons, List.filter_cons]
      simp only [maskSelect] at maskSelect_length
      rw [List.countP_cons]
      simpa using maskSelect_length mask xs hlen
    | true =>
      simp only [maskSelect, List.zip_cons_cons, List.filter_cons]
      simp only [maskSelect] at maskSelect_length
      rw [List.countP_cons]
      simpa using maskSelect_length mask xs hlen

/-- A true mask entry sits strictly before the end of the selection. -/
theorem maskCountBefore_lt {mask : List Bool} {j : ℕ} (hj : j < mask.length)
    (ht : mask.getD j false = true) : maskCountBefore mask j < mask.countP id := by
  conv_rhs => rw [← List.take_append_drop j mask]
  rw [List.countP_append]
  have hdrop : mask.drop j = mask[j] :: mask.drop (j + 1) :=
    List.drop_eq_getElem_cons hj
  rw [getD_of_lt mask hj] at ht
  rw [hdrop, List.countP_cons, ht]
  have hone : (if id true = true then 1 else 0) = 1 := rfl
  rw [hone]
  simp only [maskCountBefore]
  omega

/-- The element selected at the position of a true mask entry is the
original element at that index. -/
theorem maskSelect_getElem {α : Type} :
    ∀ (mask : List Bool) (xs : List α) (j : ℕ), mask.length = xs.length →
      j < mask.length → mask.getD j false = true → ∀ (d : α),
      (maskSelect mask xs).getD (maskCountBefore mask j) d = xs.getD j d
  | [], xs, j, _, hj, _, _ => by simp at hj
  | b :: mask, [], j, h, _, _, _ => by simp at h
  | b :: mask, x :: xs, 0, h, hj, ht, d => by
    have hb : b = true := by simpa using ht
    simp [maskSelect, maskCountBefore, hb]
  | b :: mask, x :: xs, j + 1, h, hj, ht, d => by
    have hlen : mask.length = xs.length := by simpa using h
    have hj2 : j < mask.length := by simpa using hj
    have ht2 : mask.getD j false = true := by simpa using ht
    have ih := maskSelect_getElem mask xs j hlen hj2 ht2 d
    cases b with
    | false =>
      simp only [maskSelect, List.zip_cons_cons, List.filter_cons,
        maskCountBefore, List.take_succ_cons, List.countP_cons] at ih ⊢
      simpa using ih
    | true =>
      simp only [maskSelect, List.zip_cons_cons, List.filter_cons,
        maskCountBefore, List.take_succ_cons, List.countP_cons] at ih ⊢
      simpa using ih

/-- Bounds of the full ranking: over a nonempty rectangular matrix, every
row receives a rank between zero and the returned bottom rank. -/
theorem full_rank_bounds {rows : List (List Val)} (hR : Rect rows) {p : ℕ}
    (hp : p < rows.length) :
    0 ≤ (_calculate_nondomination_rank rows none).1.getD p 0 ∧
      (_calculate_nondomination_rank rows none).1.getD p 0 ≤
        (_calculate_nondomination_rank rows none).2 ∧
      0 ≤ (_calculate_nondomination_rank rows none).2 := by
  have hb := full_state_ranked hR hp
  obtain ⟨k, hk, heq, hlt, hge⟩ := rankLoop_eq_iterate rows.length (matOf rows)
    (rows.length : ℤ) rows.length (initState rows.length (matOf rows))
  have hk1 : 1 ≤ k := by
    by_contra h
    have hk0 : k = 0 := by omega
    have := hge (by omega)
    rw [hk0] at this
    simp only [Function.iterate_zero_apply] at this
    have h0 : (initState rows.length (matOf rows)).rankedNum = 0 := rfl
    omega
  have hrk := (loopInv_iterate rows.length (matOf rows) k).rank_eq
  have hcalc : _calculate_nondomination_rank rows none =
      ((List.range rows.length).map
        ((rankStep rows.length (matOf rows))^[k]
          (initState rows.length (matOf rows))).ranks,
       ((rankStep rows.length (matOf rows))^[k]
          (initState rows.length (matOf rows))).rank) := by
    simp only [_calculate_nondomination_rank, nbOf]
    rw [heq]
  rw [hcalc]
  simp only [map_range_getD hp]
  rw [heq] at hb
  exact ⟨hb.1, hb.2, by omega⟩

/-- Infeasibility excludes feasibility. -/
theorem penInfeasible_not_feasible {p : Val} (h : penInfeasible p = true) :
    penFeasible p = false := by
  simp only [penInfeasible, Bool.and_eq_true] at h
  simp only [penFeasible]
  cases hle : Val.le p (Val.fin 0)
  · simp
  · have := vlt_of_lt_of_le h.2 hle
    rw [vlt_irrefl] at this
    exact absurd this (by simp)

/-! ### Claim C2 -/

/-- C2: with a matching-length penalty over a rectangular objective matrix
and the default threshold, the composed constraint-aware ranking places
every feasible row strictly below every infeasible row and every infeasible
row strictly below every unknown-penalty row, whatever the objectives. -/
theorem C2_partition_precedence (ov : List (List Val)) (pen : List Val)
    (hlen : pen.length = ov.length) (hR : Rect ov) (jf ji ju : ℕ)
    (hjf : jf < ov.length) (hji : ji < ov.length) (hju : ju < ov.length)
    (hf : penFeasible (pen.getD jf Val.nan) = true)
    (hi : penInfeasible (pen.getD ji Val.nan) = true)
    (hu : (pen.getD ju Val.nan).isNan = true) (r : List ℤ)
    (hr : _fast_non_dominated_sort ov (some pen) none = Except.ok r) :
    r.getD jf 0 < r.getD ji 0 ∧ r.getD ji 0 < r.getD ju 0 := by
  have hjfp : jf < pen.length := by omega
  have hjip : ji < pen.length := by omega
  have hjup : ju < pen.length := by omega
  rw [getD_of_lt pen hjfp] at hf
  rw [getD_of_lt pen hjip] at hi
  rw [getD_of_lt pen hjup] at hu
  have hnanf : (pen.map Val.isNan).getD jf false = false := by
    rw [getD_map_of_lt _ _ hjfp]
    simp only [penFeasible, Bool.and_eq_true] at hf
    simpa using hf.1
  have hfeasf : (pen.map penFeasible).getD jf false = true := by
    rw [getD_map_of_lt _ _ hjfp]
    exact hf
  have hnani : (pen.map Val.isNan).getD ji false = false := by
    rw [getD_map_of_lt _ _ hjip]
    simp only [penInfeasible, Bool.and_eq_true] at hi
    simpa using hi.1
  have hfeasi : (pen.map penFeasible).getD ji false = false := by
    rw [getD_map_of_lt _ _ hjip]
    exact penInfeasible_not_feasible hi
  have hinfi : (pen.map penInfeasible).getD ji false = true := by
    rw [getD_map_of_lt _ _ hjip]
    exact hi
  have hnanu : (pen.map Val.isNan).getD ju false = true := by
    rw [getD_map_of_lt _ _ hjup]
    exact hu
  simp only [_fast_non_dominated_sort] at hr
  rw [if_neg (by simp [hlen])] at hr
  have hrr := Except.ok.inj hr
  rw [← hrr, map_range_getD hjf, map_range_getD hji, map_range_getD hju]
  rw [hnanf, hfeasf, hnani, hfeasi, hnanu]
  simp only [Bool.false_eq_true, if_false, if_true]
  have hRf : Rect (maskSelect (pen.map penFeasible) ov) := by
    obtain ⟨K, hK⟩ := hR
    exact ⟨K, fun row hrow => hK row (maskSelect_mem hrow)⟩
  have hRu : Rect (maskSelect (pen.map Val.isNan) ov) := by
    obtain ⟨K, hK⟩ := hR
    exact ⟨K, fun row hrow => hK row (maskSelect_mem hrow)⟩
  have hRi : Rect (maskSelect (pen.map penInfeasible)
      (pen.map fun p => [p])) := by
    refine ⟨1, fun row hrow => ?_⟩
    have := maskSelect_mem hrow
    obtain ⟨p, _, hpe⟩ := List.mem_map.mp this
    rw [← hpe]
    rfl
  have hposf : maskCountBefore (pen.map penFeasible) jf <
      (maskSelect (pen.map penFeasible) ov).length := by
    rw [maskSelect_length _ _ (by simp [hlen])]
    exact maskCountBefore_lt (by simpa using hjfp) hfeasf
  have hposi : maskCountBefore (pen.map penInfeasible) ji <
      (maskSelect (pen.map penInfeasible) (pen.map fun p => [p])).length := by
    rw [maskSelect_length _ _ (by simp)]
    exact maskCountBefore_lt (by simpa using hjip) hinfi
  have hposu : maskCountBefore (pen.map Val.isNan) ju <
      (maskSelect (pen.map Val.isNan) ov).length := by
    rw [maskSelect_length _ _ (by simp [hlen])]
    exact maskCountBefore_lt (by simpa using hjup) hnanu
  have hbf := full_rank_bounds hRf hposf
  have hbi := full_rank_bounds hRi hposi
  have hbu := full_rank_bounds hRu hposu
  omega

/-- C2 witness at a three-row instance with penalties -1, 2 and NaN. -/
theorem C2_witness :
    ([0, 1, 2] : List ℤ).getD 0 0 < ([0, 1, 2] : List ℤ).getD 1 0 ∧
      ([0, 1, 2] : List ℤ).getD 1 0 < ([0, 1, 2] : List ℤ).getD 2 0 :=
  C2_partition_precedence [[Val.fin 5], [Val.fin 0], [Val.fin 3]]
    [Val.fin (-1), Val.fin 2, Val.nan] (by decide) ⟨1, by decide⟩ 0 1 2
    (by decide) (by decide) (by decide) (by decide) (by decide) (by decide)
    [0, 1, 2] (by rfl)

/-! ### Stable sort lemmas -/

/-- Insertion permutes: the inserted list is the element plus the old. -/
theorem orderedInsertB_perm {α : Type} (le : α → α → Bool) (x : α) :
    ∀ (l : List α), List.Perm (orderedInsertB le x l) (x :: l)
  | [] => List.Perm.refl _
  | y :: ys => by
    rw [orderedInsertB]
    by_cases h : le x y = true
    · rw [if_pos h]
    · rw [if_neg h]
      exact List.Perm.trans (List.Perm.cons y (orderedInsertB_perm le x ys))
        (List.Perm.swap x y ys)

/-- The insertion sort permutes its input. -/
theorem insertionSortB_perm {α : Type} (le : α → α → Bool) :
    ∀ (l : List α), List.Perm (insertionSortB le l) l
  | [] => List.Perm.refl _
  | x :: xs =>
    List.Perm.trans (orderedInsertB_perm le x (insertionSortB le xs))
      (List.Perm.cons x (insertionSortB_perm le xs))

/-- Membership in an insertion. -/
theorem orderedInsertB_mem {α : Type} {le : α → α → Bool} {x y : α}
    {l : List α} : y ∈ orderedInsertB le x l ↔ y = x ∨ y ∈ l := by
  rw [(orderedInsertB_perm le x l).mem_iff, List.mem_cons]

/-- Inserting into a list sorted for a comparator that is transitive and
total on an ambient set keeps it sorted. -/
theorem orderedInsertB_pairwise {α : Type} {le : α → α → Bool} {S : List α}
    (htr : ∀ a ∈ S, ∀ b ∈ S, ∀ c ∈ S,
      le a b = true → le b c = true → le a c = true)
    (hto : ∀ (a b : α), le a b = true ∨ le b a = true) :
    ∀ {x : α} {l : List α}, x ∈ S → (∀ y ∈ l, y ∈ S) →
      l.Pairwise (fun a b => le a b = true) →
      (orderedInsertB le x l).Pairwise (fun a b => le a b = true)
  | x, [], _, _, _ => by simp [orderedInsertB]
  | x, y :: ys, hx, hl, h => by
    rw [orderedInsertB]
    by_cases hxy : le x y = true
    · rw [if_pos hxy]
      refine List.Pairwise.cons ?_ h
      intro z hz
      rcases List.mem_cons.mp hz with hzy | hzys
      · rw [hzy]
        exact hxy
      · exact htr x hx y (hl y (by simp)) z (hl z (by simp [hzys])) hxy
          ((List.pairwise_cons.mp h).1 z hzys)
    · rw [if_neg hxy]
      have hyx : le y x = true := by
        rcases hto x y with h2 | h2
        · exact absurd h2 hxy
        · exact h2
      refine List.Pairwise.cons ?_ (orderedInsertB_pairwise htr hto hx
        (fun z hz => hl z (by simp [hz])) (List.pairwise_cons.mp h).2)
      intro z hz
      rcases orderedInsertB_mem.mp hz with hzx | hzys
      · rw [hzx]
        exact hyx
      · exact (List.pairwise_cons.mp h).1 z hzys

/-- The insertion sort sorts, for a comparator transitive and total on an
ambient set containing the input. -/
theorem insertionSortB_pairwise {α : Type} {le : α → α → Bool} {S : List α}
    (htr : ∀ a ∈ S, ∀ b ∈ S, ∀ c ∈ S,
      le a b = true → le b c = true → le a c = true)
    (hto : ∀ (a b : α), le a b = true ∨ le b a = true) :
    ∀ {l : List α}, (∀ y ∈ l, y ∈ S) →
      (insertionSortB le l).Pairwise (fun a b => le a b = true)
  | [], _ => by simp [insertionSortB]
  | x :: xs, hl => by
    rw [insertionSortB]
    exact orderedInsertB_pairwise htr hto (hl x (by simp))
      (fun y hy => hl y (by
        simp [(insertionSortB_perm le xs).mem_iff.mp hy]))
      (insertionSortB_pairwise htr hto (fun y hy => hl y (by simp [hy])))

/-! ### The lexicographic sort key comparator -/

/-- Real inequality makes IEEE equality false. -/
theorem vbeq_ne {a b : Val} (h : a ≠ b) : Val.beq a b = false := by
  cases hb : Val.beq a b
  · rfl
  · exact absurd (vbeq_eq hb) h

/-- Away from NaN a failed strict comparison is a reversed non-strict one. -/
theorem vnot_lt {a b : Val} (ha : a.isNan = false) (hb : b.isNan = false) :
    Val.lt a b = false ↔ Val.le b a = true := by
  cases a <;> cases b <;> simp_all [Val.le, Val.lt, Val.isNan] <;> linarith

/-- A non-strict comparison between distinct values is strict. -/
theorem vle_ne_lt {a b : Val} (h : Val.le a b = true) (hne : a ≠ b) :
    Val.lt a b = true := (vle_beq_lt h).mp (vbeq_ne hne)

/-- The Python tuple comparison is asymmetric, NaN included. -/
theorem pairLt_asymm {p q : Val × Val} (h : pairLt p q = true) :
    pairLt q p = false := by
  rw [pairLt] at h ⊢
  by_cases h1 : Val.beq p.1 q.1 = true
  · rw [if_pos h1] at h
    rw [vbeq_symm] at h1
    rw [if_pos h1]
    by_cases h2 : Val.beq p.2 q.2 = true
    · rw [if_pos h2] at h
      exact absurd h (by simp)
    · rw [if_neg h2] at h
      rw [if_neg (by rw [vbeq_symm]; exact h2), vlt_asymm h]
  · rw [if_neg h1] at h
    rw [if_neg (by rw [vbeq_symm]; exact h1), vlt_asymm h]

/-- The sort comparator is total, NaN included. -/
theorem trialLe_total (dirs : List StudyDirection) (a b : FrozenTrial) :
    trialLe dirs a b = true ∨ trialLe dirs b a = true := by
  rw [trialLe, trialLe]
  cases h : pairLt (trialKey dirs b) (trialKey dirs a)
  · left
    rfl
  · right
    rw [pairLt_asymm h]
    rfl

/-- Characterisation of the sort comparator between NaN-free keys: first
components compare, ties fall through to the second components. -/
theorem trialLe_iff {dirs : List StudyDirection} {a b : FrozenTrial}
    (ha0 : (trialKey dirs a).1.isNan = false)
    (ha1 : (trialKey dirs a).2.isNan = false)
    (hb0 : (trialKey dirs b).1.isNan = false)
    (hb1 : (trialKey dirs b).2.isNan = false) :
    trialLe dirs a b = true ↔
      (Val.le (trialKey dirs a).1 (trialKey dirs b).1 = true ∧
        ((trialKey dirs a).1 = (trialKey dirs b).1 →
          Val.le (trialKey dirs a).2 (trialKey dirs b).2 = true)) := by
  rw [trialLe, Bool.not_eq_true', pairLt]
  by_cases h1 : Val.beq (trialKey dirs b).1 (trialKey dirs a).1 = true
  · have he1 : (trialKey dirs b).1 = (trialKey dirs a).1 := vbeq_eq h1
    rw [if_pos h1]
    by_cases h2 : Val.beq (trialKey dirs b).2 (trialKey dirs a).2 = true
    · have he2 : (trialKey dirs b).2 = (trialKey dirs a).2 := vbeq_eq h2
      rw [if_pos h2]
      simp only [true_iff]
      refine ⟨by rw [he1]; exact vle_refl ha0, fun _ => ?_⟩
      rw [he2]
      exact vle_refl ha1
    · rw [if_neg h2, vnot_lt hb1 ha1]
      constructor
      · intro h
        exact ⟨by rw [he1]; exact vle_refl ha0, fun _ => h⟩
      · intro h
        exact h.2 he1.symm
  · rw [if_neg h1, vnot_lt hb0 ha0]
    have hne : (trialKey dirs a).1 ≠ (trialKey dirs b).1 := by
      intro h
      rw [h, vbeq_refl hb0] at h1
      exact h1 rfl
    constructor
    · intro h
      exact ⟨h, fun he => absurd he hne⟩
    · intro h
      exact h.1

/-- Transitivity of the sort comparator between NaN-free keys. -/
theorem trialLe_trans {dirs : List StudyDirection} {a b c : FrozenTrial}
    (ha0 : (trialKey dirs a).1.isNan = false)
    (ha1 : (trialKey dirs a).2.isNan = false)
    (hb0 : (trialKey dirs b).1.isNan = false)
    (hb1 : (trialKey dirs b).2.isNan = false)
    (hc0 : (trialKey dirs c).1.isNan = false)
    (hc1 : (trialKey dirs c).2.isNan = false)
    (hab : trialLe dirs a b = true) (hbc : trialLe dirs b c = true) :
    trialLe dirs a c = true := by
  rw [trialLe_iff ha0 ha1 hb0 hb1] at hab
  rw [trialLe_iff hb0 hb1 hc0 hc1] at hbc
  rw [trialLe_iff ha0 ha1 hc0 hc1]
  refine ⟨vle_trans hab.1 hbc.1, fun hac => ?_⟩
  have hba : Val.le (trialKey dirs b).1 (trialKey dirs a).1 = true := by
    rw [hac]
    exact hbc.1
  have hab0 : (trialKey dirs a).1 = (trialKey dirs b).1 :=
    vle_antisymm hab.1 hba
  exact vle_trans (hab.2 hab0) (hbc.2 (by rw [← hab0, hac]))

/-! ### Two-objective keys and dominance -/

/-- With two directions and two values, the normalized vector is exactly
the sort key pair. -/
theorem normalizedValues_eq_key {t : FrozenTrial} {dirs : List StudyDirection}
    (hd : dirs.length = 2) (hv : t.values.length = 2) :
    normalizedValues t dirs = [(trialKey dirs t).1, (trialKey dirs t).2] := by
  obtain ⟨v0, v1, hvals⟩ := List.length_eq_two.mp hv
  obtain ⟨d0, d1, hds⟩ := List.length_eq_two.mp hd
  rw [normalizedValues, trialKey, hvals, hds]
  rfl

/-- NaN-free normalized values give NaN-free key components. -/
theorem key_not_nan {t : FrozenTrial} {dirs : List StudyDirection}
    (hd : dirs.length = 2) (hv : t.values.length = 2)
    (h : ∀ v ∈ normalizedValues t dirs, v.isNan = false) :
    (trialKey dirs t).1.isNan = false ∧ (trialKey dirs t).2.isNan = false := by
  rw [normalizedValues_eq_key hd hv] at h
  exact ⟨h _ (by simp), h _ (by simp)⟩

/-- Dominance between complete two-objective trials, read off the keys:
distinct keys and both components at most the other. -/
theorem dominatesCore_key {o t : FrozenTrial} {dirs : List StudyDirection}
    (ho : o.state = TrialState.complete) (ht : t.state = TrialState.complete)
    (hd : dirs.length = 2) (hvo : o.values.length = 2)
    (hvt : t.values.length = 2) :
    dominatesCore o t dirs = true ↔
      (trialKey dirs o ≠ trialKey dirs t ∧
        Val.le (trialKey dirs o).1 (trialKey dirs t).1 = true ∧
        Val.le (trialKey dirs o).2 (trialKey dirs t).2 = true) := by
  have hsh : dominatesCore o t dirs =
      (if valListEq (normalizedValues o dirs) (normalizedValues t dirs)
        then false
        else ((normalizedValues o dirs).zip (normalizedValues t dirs)).all
          fun x => Val.le x.1 x.2) := by
    simp [dominatesCore, ho, ht]
  rw [hsh, normalizedValues_eq_key hd hvo, normalizedValues_eq_key hd hvt]
  have hvl : valListEq [(trialKey dirs o).1, (trialKey dirs o).2]
      [(trialKey dirs t).1, (trialKey dirs t).2] =
      (Val.beq (trialKey dirs o).1 (trialKey dirs t).1 &&
        Val.beq (trialKey dirs o).2 (trialKey dirs t).2) := by
    simp [valListEq]
  have hall : (([(trialKey dirs o).1, (trialKey dirs o).2].zip
      [(trialKey dirs t).1, (trialKey dirs t).2]).all
        fun x => Val.le x.1 x.2) =
      (Val.le (trialKey dirs o).1 (trialKey dirs t).1 &&
        Val.le (trialKey dirs o).2 (trialKey dirs t).2) := by
    simp
  rw [hvl, hall]
  by_cases hbeq : (Val.beq (trialKey dirs o).1 (trialKey dirs t).1 &&
      Val.beq (trialKey dirs o).2 (trialKey dirs t).2) = true
  · rw [if_pos hbeq]
    rw [Bool.and_eq_true] at hbeq
    have h1 := vbeq_eq hbeq.1
    have h2 := vbeq_eq hbeq.2
    have hkeq : trialKey dirs o = trialKey dirs t := Prod.ext h1 h2
    simp [hkeq]
  · rw [if_neg hbeq, Bool.and_eq_true]
    constructor
    · rintro ⟨h0, h1⟩
      refine ⟨?_, h0, h1⟩
      intro hkeq
      apply hbeq
      rw [hkeq, Bool.and_eq_true]
      exact ⟨vbeq_refl (vle_not_nan h0).2, vbeq_refl (vle_not_nan h1).2⟩
    · rintro ⟨hne, h0, h1⟩
      exact ⟨h0, h1⟩

/-- Dominance between NaN-free-key trials forces a strictly smaller key in
the lexicographic tuple order. -/
theorem dom_pairLt {o t : FrozenTrial} {dirs : List StudyDirection}
    (ho : o.state = TrialState.complete) (ht : t.state = TrialState.complete)
    (hd : dirs.length = 2) (hvo : o.values.length = 2)
    (hvt : t.values.length = 2)
    (hno0 : (trialKey dirs o).1.isNan = false)
    (hnt0 : (trialKey dirs t).1.isNan = false)
    (h : dominatesCore o t dirs = true) :
    pairLt (trialKey dirs o) (trialKey dirs t) = true := by
  rw [dominatesCore_key ho ht hd hvo hvt] at h
  obtain ⟨hne, h0, h1⟩ := h
  rw [pairLt]
  by_cases hb0 : Val.beq (trialKey dirs o).1 (trialKey dirs t).1 = true
  · have he0 := vbeq_eq hb0
    rw [if_pos hb0]
    have hne1 : (trialKey dirs o).2 ≠ (trialKey dirs t).2 := by
      intro he1
      exact hne (Prod.ext he0 he1)
    rw [if_neg (by rw [vbeq_ne hne1]; simp)]
    exact vle_ne_lt h1 hne1
  · rw [if_neg hb0]
    have hne0 : (trialKey dirs o).1 ≠ (trialKey dirs t).1 := by
      intro he0
      rw [he0, vbeq_refl hnt0] at hb0
      exact hb0 rfl
    exact vle_ne_lt h0 hne0

/-! ### Correctness of the two-objective sweep -/

/-- Specification of the sweep over a sorted NaN-free suffix: a trial
survives exactly when nothing in the ambient sorted list dominates it. The
processed prefix P contains the reference trial L, which is globally
undominated and holds the minimal second key among processed trials. -/
theorem sweep_spec (dirs : List StudyDirection) (S : List FrozenTrial)
    (hd : dirs.length = 2)
    (hWF : ∀ t ∈ S, t.state = TrialState.complete ∧ t.values.length = 2 ∧
      (trialKey dirs t).1.isNan = false ∧ (trialKey dirs t).2.isNan = false)
    (hsorted : S.Pairwise fun a b => trialLe dirs a b = true) :
    ∀ (rest P : List FrozenTrial) (L : FrozenTrial),
      S = P ++ rest → L ∈ P →
      (∀ o ∈ S, dominatesCore o L dirs = false) →
      (∀ p ∈ P, Val.le (trialKey dirs L).2 (trialKey dirs p).2 = true) →
      ∀ t, t ∈ sweep dirs L rest ↔
        (t ∈ rest ∧ ∀ o ∈ S, dominatesCore o t dirs = false) := by
  intro rest
  induction rest with
  | nil =>
    intro P L hS hLP hLND hmin t
    simp [sweep]
  | cons c rest2 ih =>
    intro P L hS hLP hLND hmin t
    have hLS : L ∈ S := by
      rw [hS]
      exact List.mem_append_left _ hLP
    have hcS : c ∈ S := by
      rw [hS]
      exact List.mem_append_right _ (by simp)
    obtain ⟨hLst, hLv, hL0, hL1⟩ := hWF L hLS
    obtain ⟨hcst, hcv, hc0, hc1⟩ := hWF c hcS
    have hso := hsorted
    rw [hS] at hso
    have hPR := List.pairwise_append.mp hso
    have hLc : trialLe dirs L c = true := hPR.2.2 L hLP c (by simp)
    have hcrest : ∀ x ∈ rest2, trialLe dirs c x = true :=
      (List.pairwise_cons.mp hPR.2.1).1
    rw [trialLe_iff hL0 hL1 hc0 hc1] at hLc
    rw [sweep]
    by_cases hdom : dominatesCore L c dirs = true
    · rw [if_pos hdom]
      have hkey := (dominatesCore_key hLst hcst hd hLv hcv).mp hdom
      have hmin2 : ∀ p ∈ P ++ [c],
          Val.le (trialKey dirs L).2 (trialKey dirs p).2 = true := by
        intro p hp
        rcases List.mem_append.mp hp with h | h
        · exact hmin p h
        · have hpc : p = c := by simpa using h
          rw [hpc]
          exact hkey.2.2
      have hS2 : S = (P ++ [c]) ++ rest2 := by
        rw [hS]
        simp
      have hrec := ih (P ++ [c]) L hS2 (List.mem_append_left _ hLP) hLND
        hmin2 t
      rw [hrec]
      constructor
      · rintro ⟨ht, hnd⟩
        exact ⟨by simp [ht], hnd⟩
      · rintro ⟨ht, hnd⟩
        rcases List.mem_cons.mp ht with htc | ht2
        · exfalso
          have hLt := hnd L hLS
          rw [htc] at hLt
          rw [hLt] at hdom
          exact absurd hdom (by simp)
        · exact ⟨ht2, hnd⟩
    · rw [if_neg hdom]
      have hK1cL : Val.le (trialKey dirs c).2 (trialKey dirs L).2 = true := by
        by_cases hkeq : trialKey dirs L = trialKey dirs c
        · rw [← hkeq]
          exact vle_refl hL1
        · have hnle : ¬ (Val.le (trialKey dirs L).1 (trialKey dirs c).1 = true ∧
              Val.le (trialKey dirs L).2 (trialKey dirs c).2 = true) := by
            intro hboth
            apply hdom
            rw [dominatesCore_key hLst hcst hd hLv hcv]
            exact ⟨hkeq, hboth.1, hboth.2⟩
          have hnK1 : Val.le (trialKey dirs L).2 (trialKey dirs c).2 = false := by
            cases h : Val.le (trialKey dirs L).2 (trialKey dirs c).2
            · rfl
            · exact absurd ⟨hLc.1, h⟩ hnle
          exact vlt_imp_le ((vnot_le hL1 hc1).mp hnK1)
      have hminc : ∀ p ∈ P ++ [c],
          Val.le (trialKey dirs c).2 (trialKey dirs p).2 = true := by
        intro p hp
        rcases List.mem_append.mp hp with h | h
        · exact vle_trans hK1cL (hmin p h)
        · have hpc : p = c := by simpa using h
          rw [hpc]
          exact vle_refl hc1
      have hcND : ∀ o ∈ S, dominatesCore o c dirs = false := by
        intro d hdS
        by_contra hdcn
        have hdc : dominatesCore d c dirs = true := by
          cases h : dominatesCore d c dirs
          · exact absurd h hdcn
          · rfl
        obtain ⟨hdst, hdv, hd0, hd1⟩ := hWF d hdS
        have hplt := dom_pairLt hdst hcst hd hdv hcv hd0 hc0 hdc
        have hdP : d ∈ P := by
          rw [hS] at hdS
          rcases List.mem_append.mp hdS with h | h
          · exact h
          · exfalso
            rcases List.mem_cons.mp h with hdc2 | hdr
            · rw [hdc2] at hplt
              have hasym := pairLt_asymm hplt
              rw [hasym] at hplt
              exact absurd hplt (by simp)
            · have hcd := hcrest d hdr
              rw [trialLe, Bool.not_eq_true'] at hcd
              rw [hcd] at hplt
              exact absurd hplt (by simp)
        have hkeyd := (dominatesCore_key hdst hcst hd hdv hcv).mp hdc
        have hK1Lc : Val.le (trialKey dirs L).2 (trialKey dirs c).2 = true :=
          vle_trans (hmin d hdP) hkeyd.2.2
        have hkeq : trialKey dirs L = trialKey dirs c := by
          by_contra hne
          apply hdom
          rw [dominatesCore_key hLst hcst hd hLv hcv]
          exact ⟨hne, hLc.1, hK1Lc⟩
        have hdomL : dominatesCore d L dirs = true := by
          rw [dominatesCore_key hdst hLst hd hdv hLv, hkeq]
          exact hkeyd
        have hLd := hLND d hdS
        rw [hLd] at hdomL
        exact absurd hdomL (by simp)
      have hS2 : S = (P ++ [c]) ++ rest2 := by
        rw [hS]
        simp
      have hrec := ih (P ++ [c]) c hS2 (List.mem_append_right _ (by simp))
        hcND hminc t
      rw [List.mem_cons, hrec]
      constructor
      · rintro (htc | ⟨ht2, hnd⟩)
        · refine ⟨by simp [htc], ?_⟩
          rw [htc]
          exact hcND
        · exact ⟨by simp [ht2], hnd⟩
      · rintro ⟨htm, hnd⟩
        rcases List.mem_cons.mp htm with htc | ht2
        · exact Or.inl htc
        · exact Or.inr ⟨ht2, hnd⟩

/-- A negated any over the dominance test is the pointwise negation. -/
theorem any_dom_false_iff {ts : List FrozenTrial} {t : FrozenTrial}
    {dirs : List StudyDirection} :
    (!(ts.any fun o => dominatesCore o t dirs)) = true ↔
      ∀ o ∈ ts, dominatesCore o t dirs = false := by
  rw [Bool.not_eq_true', List.any_eq_false]
  constructor
  · intro h o ho
    cases hc : dominatesCore o t dirs
    · rfl
    · exact absurd hc (h o ho)
  · intro h o ho
    rw [h o ho]
    simp

/-- The head of the sorted list is dominated by nothing in it: a dominating
trial would carry a strictly lex-smaller key, contradicting sortedness. -/
theorem sorted_head_undominated (dirs : List StudyDirection)
    (S : List FrozenTrial) (hd : dirs.length = 2)
    (hWF : ∀ t ∈ S, t.state = TrialState.complete ∧ t.values.length = 2 ∧
      (trialKey dirs t).1.isNan = false ∧ (trialKey dirs t).2.isNan = false)
    (hsorted : S.Pairwise fun a b => trialLe dirs a b = true)
    (first : FrozenTrial) (rest : List FrozenTrial)
    (hS : S = first :: rest) :
    ∀ o ∈ S, dominatesCore o first dirs = false := by
  intro d hdS
  by_contra hdcn
  have hdc : dominatesCore d first dirs = true := by
    cases h : dominatesCore d first dirs
    · exact absurd h hdcn
    · rfl
  have hfS : first ∈ S := by
    rw [hS]
    simp
  obtain ⟨hdst, hdv, hd0, hd1⟩ := hWF d hdS
  obtain ⟨hfst, hfv, hf0, hf1⟩ := hWF first hfS
  have hplt := dom_pairLt hdst hfst hd hdv hfv hd0 hf0 hdc
  rw [hS] at hdS
  rcases List.mem_cons.mp hdS with hdf | hdr
  · rw [hdf] at hplt
    have hasym := pairLt_asymm hplt
    rw [hasym] at hplt
    exact absurd hplt (by simp)
  · have hso := hsorted
    rw [hS] at hso
    have hfd := (List.pairwise_cons.mp hso).1 d hdr
    rw [trialLe, Bool.not_eq_true'] at hfd
    rw [hfd] at hplt
    exact absurd hplt (by simp)

/-! ### Claim C3 -/

/-- C3 amended: with two directions, trials whose completed members carry
two objective values with NaN-free normalizations, the 2d and the nd
extraction return the same set of trials, hence the same set of trial
numbers; only the ordering may differ. -/
theorem C3_front_sets_agree (trials : List FrozenTrial)
    (dirs : List StudyDirection) (hd : dirs.length = 2)
    (hwf : ∀ t ∈ trials, t.state = TrialState.complete →
      t.values.length = 2 ∧ ∀ v ∈ normalizedValues t dirs, v.isNan = false) :
    (∀ t : FrozenTrial, t ∈ _get_pareto_front_trials_2d trials dirs ↔
        t ∈ _get_pareto_front_trials_nd trials dirs) ∧
    (∀ m : ℕ,
      m ∈ (_get_pareto_front_trials_2d trials dirs).map FrozenTrial.number ↔
        m ∈ (_get_pareto_front_trials_nd trials dirs).map FrozenTrial.number) := by
  have hmain : ∀ t : FrozenTrial, t ∈ _get_pareto_front_trials_2d trials dirs ↔
      t ∈ _get_pareto_front_trials_nd trials dirs := by
    intro t
    have hWFts : ∀ u ∈ trials.filter
        (fun x => decide (x.state = TrialState.complete)),
        u.state = TrialState.complete ∧ u.values.length = 2 ∧
          (trialKey dirs u).1.isNan = false ∧
          (trialKey dirs u).2.isNan = false := by
      intro u hu
      obtain ⟨hmem, hst⟩ := List.mem_filter.mp hu
      have hst : u.state = TrialState.complete := by simpa using hst
      obtain ⟨hv, hnan⟩ := hwf u hmem hst
      obtain ⟨h0, h1⟩ := key_not_nan hd hv hnan
      exact ⟨hst, hv, h0, h1⟩
    have hperm := insertionSortB_perm (trialLe dirs)
      (trials.filter fun x => decide (x.state = TrialState.complete))
    have hWFs : ∀ u ∈ insertionSortB (trialLe dirs)
        (trials.filter fun x => decide (x.state = TrialState.complete)),
        u.state = TrialState.complete ∧ u.values.length = 2 ∧
          (trialKey dirs u).1.isNan = false ∧
          (trialKey dirs u).2.isNan = false :=
      fun u hu => hWFts u (hperm.mem_iff.mp hu)
    have hsortedP : (insertionSortB (trialLe dirs)
        (trials.filter fun x => decide (x.state = TrialState.complete))).Pairwise
          (fun a b => trialLe dirs a b = true) := by
      refine insertionSortB_pairwise ?_ (trialLe_total dirs) (fun y hy => hy)
      intro a ha b hb c hc hab hbc
      obtain ⟨_, _, ha0, ha1⟩ := hWFts a ha
      obtain ⟨_, _, hb0, hb1⟩ := hWFts b hb
      obtain ⟨_, _, hc0, hc1⟩ := hWFts c hc
      exact trialLe_trans ha0 ha1 hb0 hb1 hc0 hc1 hab hbc
    have hnd : t ∈ _get_pareto_front_trials_nd trials dirs ↔
        (t ∈ trials.filter (fun x => decide (x.state = TrialState.complete)) ∧
          ∀ o ∈ trials.filter (fun x => decide (x.state = TrialState.complete)),
            dominatesCore o t dirs = false) := by
      simp only [_get_pareto_front_trials_nd]
      rw [List.mem_filter, any_dom_false_iff]
    rw [hnd]
    simp only [_get_pareto_front_trials_2d]
    cases hse : insertionSortB (trialLe dirs)
        (trials.filter fun x => decide (x.state = TrialState.complete)) with
    | nil =>
      have hts : trials.filter
          (fun x => decide (x.state = TrialState.complete)) = [] := by
        have := hperm
        rw [hse] at this
        exact this.symm.eq_nil
      rw [hts]
      simp
    | cons first rest =>
      have hred : (match first :: rest with
          | [] => ([] : List FrozenTrial)
          | first :: rest =>
            insertionSortB (fun a b => decide (a.number ≤ b.number))
              (first :: sweep dirs first rest)) =
          insertionSortB (fun a b => decide (a.number ≤ b.number))
            (first :: sweep dirs first rest) := rfl
      rw [hred]
      have hperm2 := insertionSortB_perm
        (fun (a b : FrozenTrial) => decide (a.number ≤ b.number))
        (first :: sweep dirs first rest)
      rw [hperm2.mem_iff]
      have hWFs2 : ∀ u ∈ (first :: rest),
          u.state = TrialState.complete ∧ u.values.length = 2 ∧
            (trialKey dirs u).1.isNan = false ∧
            (trialKey dirs u).2.isNan = false := by
        rw [← hse]
        exact hWFs
      have hsorted2 : (first :: rest).Pairwise
          (fun a b => trialLe dirs a b = true) := by
        rw [← hse]
        exact hsortedP
      have hheadND := sorted_head_undominated dirs (first :: rest) hd hWFs2
        hsorted2 first rest rfl
      have hsw := sweep_spec dirs (first :: rest) hd hWFs2 hsorted2 rest
        [first] first rfl (by simp) hheadND
        (by
          intro p hp
          have hpf : p = first := by simpa using hp
          rw [hpf]
          exact vle_refl (hWFs2 first (by simp)).2.2.2) t
      rw [List.mem_cons, hsw]
      have hmemperm : ∀ u : FrozenTrial, u ∈ first :: rest ↔
          u ∈ trials.filter (fun x => decide (x.state = TrialState.complete)) := by
        intro u
        rw [← hse]
        exact hperm.mem_iff
      have hdomperm : ∀ u : FrozenTrial,
          ((∀ o ∈ (first :: rest), dominatesCore o u dirs = false) ↔
            (∀ o ∈ trials.filter (fun x => decide (x.state = TrialState.complete)),
              dominatesCore o u dirs = false)) := by
        intro u
        constructor
        · intro h o ho
          exact h o ((hmemperm o).mpr ho)
        · intro h o ho
          exact h o ((hmemperm o).mp ho)
      constructor
      · rintro (htf | ⟨ht2, hnd2⟩)
        · rw [htf]
          refine ⟨(hmemperm first).mp (by simp), ?_⟩
          exact ((hdomperm first).mp (by
            intro o ho
            exact hheadND o ho))
        · exact ⟨(hmemperm t).mp (by simp [ht2]), (hdomperm t).mp hnd2⟩
      · rintro ⟨htm, hnd2⟩
        have htm2 := (hmemperm t).mpr htm
        rcases List.mem_cons.mp htm2 with htf | ht2
        · exact Or.inl htf
        · exact Or.inr ⟨ht2, (hdomperm t).mpr hnd2⟩
  refine ⟨hmain, fun m => ?_⟩
  simp only [List.mem_map]
  constructor
  · rintro ⟨u, hu, hum⟩
    exact ⟨u, (hmain u).mp hu, hum⟩
  · rintro ⟨u, hu, hum⟩
    exact ⟨u, (hmain u).mpr hu, hum⟩

/-- C3 counterexample: with a NaN objective value the two extractions
disagree as sets. The trial keys are (1,1), (NaN,0) and (2,2); all pairwise
strict key comparisons are false, so the stable sort keeps the input order,
the sweep reference becomes the NaN trial, which dominates nothing, and the
2d front keeps trial 2 even though trial 0 dominates it; the nd front drops
it. -/
theorem C3_counterexample :
    2 ∈ (_get_pareto_front_trials_2d
        [{ number := 0, state := TrialState.complete,
           values := [some (Val.fin 1), some (Val.fin 1)] },
         { number := 1, state := TrialState.complete,
           values := [some Val.nan, some (Val.fin 0)] },
         { number := 2, state := TrialState.complete,
           values := [some (Val.fin 2), some (Val.fin 2)] }]
        [StudyDirection.minimize, StudyDirection.minimize]).map
        FrozenTrial.number ∧
    2 ∉ (_get_pareto_front_trials_nd
        [{ number := 0, state := TrialState.complete,
           values := [some (Val.fin 1), some (Val.fin 1)] },
         { number := 1, state := TrialState.complete,
           values := [some Val.nan, some (Val.fin 0)] },
         { number := 2, state := TrialState.complete,
           values := [some (Val.fin 2), some (Val.fin 2)] }]
        [StudyDirection.minimize, StudyDirection.minimize]).map
        FrozenTrial.number := by
  constructor
  · decide
  · decide

/-- C3 witness: on a NaN-free two-objective instance the two extractions
agree on the number 2. -/
theorem C3_witness :
    2 ∈ (_get_pareto_front_trials_2d
        [{ number := 0, state := TrialState.complete,
           values := [some (Val.fin 1), some (Val.fin 2)] },
         { number := 1, state := TrialState.complete,
           values := [some (Val.fin 2), some (Val.fin 1)] },
         { number := 2, state := TrialState.complete,
           values := [some (Val.fin 3), some (Val.fin 3)] }]
        [StudyDirection.minimize, StudyDirection.minimize]).map
        FrozenTrial.number ↔
    2 ∈ (_get_pareto_front_trials_nd
        [{ number := 0, state := TrialState.complete,
           values := [some (Val.fin 1), some (Val.fin 2)] },
         { number := 1, state := TrialState.complete,
           values := [some (Val.fin 2), some (Val.fin 1)] },
         { number := 2, state := TrialState.complete,
           values := [some (Val.fin 3), some (Val.fin 3)] }]
        [StudyDirection.minimize, StudyDirection.minimize]).map
        FrozenTrial.number :=
  (C3_front_sets_agree _ _ (by decide) (by decide)).2 2
